import Mathlib

/-!
# Freewrite (`App.tsx`): entry store and session controller

A shallow embedding of the entry lifecycle logic of `src/App.tsx`:
preview derivation, filename parsing, entry listing and sorting, the
bootstrap decision, entry creation, selection, saving and deletion, the auto-save
effect, search filtering, month sections and the countdown timer.

Conventions of the embedding:

* a JavaScript string that holds text (a file name, a file content, an id, a
  query) is a `List Char`, one Unicode character per element; where the program
  counts or cuts a string by position (`.length`, `.substring`), the string is
  taken as the list of its UTF-16 code units (`utf16`), and so is the preview
  that results from the cut;
* the file store is an association list from file names to contents;
* a `Date` built by `new Date(y, m, d)` is the number of its local calendar
  day (days since 1970-01-01), computed as ECMAScript `MakeDay` does;
* storage calls that may throw take a flag saying whether they complete, and
  the time of the auto-save interval is counted in milliseconds.
-/

namespace Freewrite

/-- A JavaScript string that holds text: the list of its characters. -/
abbrev JSString := List Char

/-- A JavaScript string as the list of its UTF-16 code units; a code unit is a
number below 65536. A string cut between the two code units of a character
outside the Basic Multilingual Plane is such a list, but not a `JSString`. -/
abbrev CodeUnits := List Nat

/-- The UTF-16 code units of one character: one unit for a character of the
Basic Multilingual Plane, a high and a low surrogate for any other. -/
def utf16Char (c : Char) : CodeUnits :=
  if c.toNat < 0x10000 then [c.toNat]
  else [0xD800 + (c.toNat - 0x10000) / 0x400, 0xDC00 + (c.toNat - 0x10000) % 0x400]

/-- The UTF-16 code units of a text. -/
def utf16 : JSString → CodeUnits
  | [] => []
  | c :: cs => utf16Char c ++ utf16 cs

/-! ## String built-ins used by `App.tsx` -/

/-- ECMAScript `LineTerminator`: LF, CR, LS, PS. -/
def isLineTerminator (c : Char) : Bool :=
  c.toNat = 0x0A || c.toNat = 0x0D || c.toNat = 0x2028 || c.toNat = 0x2029

/-- The characters removed by `String.prototype.trim`: ECMAScript `WhiteSpace`
(TAB, VT, FF, ZWNBSP and the Unicode space separators) and `LineTerminator`. -/
def isWhiteSpace (c : Char) : Bool :=
  c.toNat = 0x09 || c.toNat = 0x0B || c.toNat = 0x0C || c.toNat = 0x20 ||
  c.toNat = 0xA0 || c.toNat = 0x1680 || (0x2000 ≤ c.toNat && c.toNat ≤ 0x200A) ||
  c.toNat = 0x202F || c.toNat = 0x205F || c.toNat = 0x3000 || c.toNat = 0xFEFF ||
  isLineTerminator c

/-- The method `String.prototype.trimStart`. -/
def trimStart (s : JSString) : JSString := s.dropWhile isWhiteSpace

/-- The method `String.prototype.trimEnd`. -/
def trimEnd (s : JSString) : JSString := (s.reverse.dropWhile isWhiteSpace).reverse

/-- The method `String.prototype.trim`. -/
def trim (s : JSString) : JSString := trimEnd (trimStart s)

/-- The call `content.replace(/\n/g, ' ')`: every line feed becomes a space. -/
def replaceNewlines (s : JSString) : JSString :=
  s.map (fun c => if c = '\n' then ' ' else c)

/-- The three-character ellipsis `'...'`. -/
def ellipsis : JSString := ['.', '.', '.']

/-- The preview computation shared by `loadEntries` (lines 178-180) and
`saveCurrentEntry` (lines 315-317):
`preview = content.replace(/\n/g, ' ').trim()` and then
`preview.length > 30 ? preview.substring(0, 30) + '...' : preview`.
The replacement and the trimming act on characters of the Basic Multilingual
Plane only, so they are done on the text; `.length` and `.substring` count
UTF-16 code units, so the comparison and the cut are done on the code units. -/
def previewText (content : JSString) : CodeUnits :=
  let preview := utf16 (trim (replaceNewlines content))
  if preview.length > 30 then preview.take 30 ++ utf16 ellipsis else preview

/-- The method `String.prototype.endsWith`. -/
def endsWith (s suffix : JSString) : Bool := suffix.reverse.isPrefixOf s.reverse

/-- The method `String.prototype.includes`: `q` occurs in `s` as a contiguous
substring. -/
def includes {α : Type} [DecidableEq α] : List α → List α → Bool
  | [], q => q.isEmpty
  | c :: cs, q => q.isPrefixOf (c :: cs) || includes cs q

/-- The call `s.split('-')`. -/
def splitDash : JSString → List JSString
  | [] => [[]]
  | c :: cs =>
    if c = '-' then [] :: splitDash cs
    else match splitDash cs with
      | [] => [[c]]
      | p :: ps => (c :: p) :: ps

/-- The functions `parseInt` and `Number` on the strings the program passes to
them: the regular expressions guarantee a non-empty run of decimal digits, whose
value is returned. -/
def parseInt (s : JSString) : Nat := s.foldl (fun n c => 10 * n + (c.toNat - 48)) 0

/-- The method `dateB.localeCompare(dateA)` as a sign (-1, 0, 1). The program
compares only strings made of ASCII digits and hyphens (or the empty string),
on which the locale order is the lexicographic order of the code units. -/
def localeCompare : JSString → JSString → Int
  | [], [] => 0
  | [], _ :: _ => -1
  | _ :: _, [] => 1
  | a :: as, b :: bs =>
    if a.toNat < b.toNat then -1
    else if b.toNat < a.toNat then 1
    else localeCompare as bs

/-- Insertion of `x` in front of the first element it may precede. -/
def insertSorted {α : Type} (cmp : α → α → Int) (x : α) : List α → List α
  | [] => [x]
  | y :: ys => if cmp x y ≤ 0 then x :: y :: ys else y :: insertSorted cmp x ys

/-- The method `Array.prototype.sort(cmp)`: a stable sort, `a` stays before `b`
unless `cmp(a, b) > 0`. -/
def arraySort {α : Type} (cmp : α → α → Int) : List α → List α
  | [] => []
  | x :: xs => insertSorted cmp x (arraySort cmp xs)

/-! ## The regular expressions of `App.tsx` -/

/-- One position of a fixed-width pattern: a literal character or `\d`. -/
inductive Atom where
  | lit (c : Char)
  | digit
deriving DecidableEq, Repr

/-- Whether a character is accepted at a pattern position (`\d` is `[0-9]`). -/
def Atom.test : Atom → Char → Bool
  | .lit c, x => x = c
  | .digit, x => 48 ≤ x.toNat && x.toNat ≤ 57

/-- Matches a fixed-width pattern at the start of the text; returns the matched
text. -/
def matchHere : List Atom → JSString → Option JSString
  | [], _ => some []
  | _ :: _, [] => none
  | a :: as, c :: cs =>
    if a.test c then (matchHere as cs).map (fun m => c :: m) else none

/-- The method `text.match(pattern)` without the `g` flag: the match at the
leftmost position where the pattern matches. -/
def search (p : List Atom) : JSString → Option JSString
  | [] => matchHere p []
  | c :: cs =>
    match matchHere p (c :: cs) with
    | some m => some m
    | none => search p cs

/-- The pattern `\d{2}`. -/
def d2 : List Atom := [.digit, .digit]

/-- The pattern `\d{4}`. -/
def d4 : List Atom := [.digit, .digit, .digit, .digit]

/-- The regular expression `/\[(\d{4}-\d{2})/` (line 520). -/
def yearMonthPattern : List Atom := .lit '[' :: d4 ++ .lit '-' :: d2

/-- The regular expression `/\[(\d{4}-\d{2}-\d{2})/` (lines 195, 196, 207, 232). -/
def yearMonthDayPattern : List Atom := yearMonthPattern ++ .lit '-' :: d2

/-- The regular expression `/\[(\d{4}-\d{2}-\d{2}-\d{2}-\d{2}-\d{2})\]/`
(line 163). -/
def dateTimePattern : List Atom :=
  yearMonthDayPattern ++ .lit '-' :: d2 ++ .lit '-' :: d2 ++ .lit '-' :: d2 ++ [.lit ']']

/-- Group 1 of `filename.match(/\[(\d{4}-\d{2})/)`. -/
def matchYearMonth (filename : JSString) : Option JSString :=
  (search yearMonthPattern filename).map (fun m => m.drop 1)

/-- Group 1 of `filename.match(/\[(\d{4}-\d{2}-\d{2})/)`. -/
def matchYearMonthDay (filename : JSString) : Option JSString :=
  (search yearMonthDayPattern filename).map (fun m => m.drop 1)

/-- Group 1 of `filename.match(/\[(\d{4}-\d{2}-\d{2}-\d{2}-\d{2}-\d{2})\]/)`. -/
def matchDateTime (filename : JSString) : Option JSString :=
  (search dateTimePattern filename).map (fun m => (m.drop 1).dropLast)

/-- The tail `(.*?)\]` of `/\[(.*?)\]/` after the opening bracket: the lazy
group takes characters up to the first `]`; `.` does not match a line
terminator. Returns group 1. -/
def lazyUntilClose : JSString → Option JSString
  | [] => none
  | c :: cs =>
    if c = ']' then some []
    else if isLineTerminator c then none
    else (lazyUntilClose cs).map (fun g => c :: g)

/-- Group 1 of `filename.match(/\[(.*?)\]/)` (line 162): the leftmost position
with a `[` from which the lazy group reaches a `]`. -/
def matchUuid : JSString → Option JSString
  | [] => none
  | c :: cs =>
    if c = '[' then
      match lazyUntilClose cs with
      | some g => some g
      | none => matchUuid cs
    else matchUuid cs

/-! ## Dates -/

/-- Day number (days since 1970-01-01) of the civil date `y`-`m`-`d`, for a month
`m` in 1..12; a day `d` outside the month counts on from the first of the month,
as ECMAScript `MakeDay` does. -/
def daysFromCivil (y m d : Int) : Int :=
  let y1 := if m ≤ 2 then y - 1 else y
  let era := y1 / 400
  let yoe := y1 - era * 400
  let mp := if m > 2 then m - 3 else m + 9
  let doy := (153 * mp + 2) / 5 + d - 1
  let doe := yoe * 365 + yoe / 4 - yoe / 100 + doy
  era * 146097 + doe - 719468

/-- Civil date (year, month 1..12, day of month) of a day number. -/
def civilFromDays (z : Int) : Int × Int × Int :=
  let z1 := z + 719468
  let era := z1 / 146097
  let doe := z1 - era * 146097
  let yoe := (doe - doe / 1460 + doe / 36524 - doe / 146096) / 365
  let doy := doe - (365 * yoe + yoe / 4 - yoe / 100)
  let mp := (5 * doy + 2) / 153
  let d := doy - (153 * mp + 2) / 5 + 1
  let m := if mp < 10 then mp + 3 else mp - 9
  let y := yoe + era * 400
  (if m ≤ 2 then y + 1 else y, m, d)

/-- The constructor `new Date(year, monthIndex, day)` as the local day number of
the date it denotes: a year in 0..99 means 1900 + year, and a month index or
a day out of range carries over (ECMAScript `MakeDay`). -/
def newDate (year monthIndex day : Int) : Int :=
  let yr := if 0 ≤ year ∧ year ≤ 99 then 1900 + year else year
  let ym := yr + monthIndex / 12
  let mn := monthIndex % 12
  daysFromCivil ym (mn + 1) day

/-- The method `date.getFullYear()`. -/
def getFullYear (date : Int) : Int := (civilFromDays date).1

/-- The method `date.getMonth()`: 0 for January .. 11 for December. -/
def getMonth (date : Int) : Int := (civilFromDays date).2.1 - 1

/-- The method `date.getDate()`: the day of the month. -/
def getDate (date : Int) : Int := (civilFromDays date).2.2

/-- English short month names, as `toLocaleString('en', { month: 'short' })`
prints them. -/
def monthShort : List JSString :=
  ["Jan", "Feb", "Mar", "Apr", "May", "Jun", "Jul", "Aug", "Sep", "Oct", "Nov",
    "Dec"].map String.toList

/-- English long month names, as `toLocaleString('en', { month: 'long' })`
prints them. -/
def monthLong : List JSString :=
  ["January", "February", "March", "April", "May", "June", "July", "August",
    "September", "October", "November", "December"].map String.toList

/-- Decimal numeral of an integer that is not negative (days of the month and
the years the program can reach). -/
def decimal (n : Int) : JSString := (Nat.repr n.toNat).toList

/-- The template `date.toLocaleString('en', { month: 'short' })` followed by a
space and `date.getDate()` (lines 173 and 266), e.g. `Jan 5`. -/
def displayDateOf (date : Int) : JSString :=
  monthShort.getD (getMonth date).toNat [] ++ ' ' :: decimal (getDate date)

/-- The call `date.toLocaleString('en', { month: 'long', year: 'numeric' })`
(line 526), e.g. `January 2024`. -/
def monthYearOf (date : Int) : JSString :=
  monthLong.getD (getMonth date).toNat [] ++ ' ' :: decimal (getFullYear date)

/-! ## Entries and the file store -/

/-- The interface `HumanEntry` (lines 26-31). -/
structure HumanEntry where
  id : JSString
  date : JSString
  filename : JSString
  previewText : CodeUnits
deriving DecidableEq, Repr

/-- The type `Section` (lines 34-37). -/
structure Section where
  title : JSString
  data : List HumanEntry
deriving DecidableEq, Repr

/-- The directory `freewrite/`: file names with their contents, in the order
`readDirectoryAsync` lists them. -/
abbrev FileStore := List (JSString × JSString)

/-- The call `FileSystem.readAsStringAsync`: `none` when it throws (no such
file). -/
def readFile (files : FileStore) (filename : JSString) : Option JSString :=
  (files.find? (fun f => f.1 = filename)).map (fun f => f.2)

/-- The call `FileSystem.writeAsStringAsync` when it completes: the file holds
the new content (an existing file is overwritten, a new one is added). -/
def writeFile (files : FileStore) (filename content : JSString) : FileStore :=
  if files.any (fun f => f.1 = filename) then
    files.map (fun f => if f.1 = filename then (f.1, content) else f)
  else files ++ [(filename, content)]

/-- The call `FileSystem.deleteAsync`: `none` when it throws, which it does when
the file does not exist or when the storage refuses (`ok = false`). -/
def deleteFile (ok : Bool) (files : FileStore) (filename : JSString) : Option FileStore :=
  if ok && files.any (fun f => f.1 = filename) then
    some (files.filter (fun f => f.1 ≠ filename))
  else none

/-- The local calendar fields of a `Date` holding a time of day, as its getters
return them (`month` is `getMonth()`, 0 for January). -/
structure DateTime where
  year : Nat
  month : Nat
  day : Nat
  hours : Nat
  minutes : Nat
  seconds : Nat
deriving DecidableEq, Repr

/-- The application state that the entry operations read and write: the React
state `entries`, `selectedEntryId`, `text`, and the directory of entry files. -/
structure AppState where
  entries : List HumanEntry
  selectedEntryId : Option JSString
  text : JSString
  files : FileStore
deriving DecidableEq, Repr

/-! ## `loadEntries`: listing -/

/-- The callback of `mdFiles.map` (lines 160-188): one file name and its content
to an entry, or `null` when one of the two patterns does not match. -/
def parseEntry (filename content : JSString) : Option HumanEntry :=
  match matchUuid filename, matchDateTime filename with
  | some id, some dateString =>
    let parts := splitDash dateString
    let year := parseInt (parts.getD 0 [])
    let month := parseInt (parts.getD 1 [])
    let day := parseInt (parts.getD 2 [])
    let date := newDate year ((month : Int) - 1) day
    some { id := id, date := displayDateOf date, filename := filename,
           previewText := previewText content }
  | _, _ => none

/-- The sort comparator of lines 194-198: the `YYYY-MM-DD` groups of the two
file names (or `''`), compared as `dateB.localeCompare(dateA)`. -/
def compareEntries (a b : HumanEntry) : Int :=
  let dateA := (matchYearMonthDay a.filename).getD []
  let dateB := (matchYearMonthDay b.filename).getD []
  localeCompare dateB dateA

/-- The value `loadedEntries` of `loadEntries` (lines 156-189) with its `null`s
dropped (line 193): the `.md` files of the directory, parsed, in directory
order. -/
def loadedEntries (files : FileStore) : List HumanEntry :=
  let mdFiles := files.filter (fun f => endsWith f.1 ['.', 'm', 'd'])
  (mdFiles.map (fun f => parseEntry f.1 f.2)).filterMap id

/-- The value `validEntries` of `loadEntries` (lines 192-198): the loaded entries
sorted with `compareEntries`. -/
def validEntries (files : FileStore) : List HumanEntry :=
  arraySort compareEntries (loadedEntries files)

/-! ## `loadEntries`: the bootstrap decision -/

/-- The predicate of `some` (lines 206-218) and of `find` (lines 231-240): the
`YYYY-MM-DD` group of the file name denotes the day `todayStart` and the preview
is empty. -/
def isEmptyEntryToday (todayStart : Int) (entry : HumanEntry) : Bool :=
  match matchYearMonthDay entry.filename with
  | some g =>
    let parts := (splitDash g).map parseInt
    let year := parts.getD 0 0
    let month := parts.getD 1 0
    let day := parts.getD 2 0
    let entryDate := newDate year ((month : Int) - 1) day
    let entryDayStart :=
      newDate (getFullYear entryDate) (getMonth entryDate) (getDate entryDate)
    decide (entryDayStart = todayStart) && decide (entry.previewText = [])
  | none => false

/-- The text `"Welcome to Freewrite"` looked for in a preview (line 221). -/
def welcomeMarker : JSString := "Welcome to Freewrite".toList

/-- What the bootstrap of `loadEntries` does after listing. `noAction` is the
fall-through of the `if`/`else if` of lines 242-248. -/
inductive BootAction where
  | createWelcome
  | createBlank
  | select (entry : HumanEntry)
  | noAction
deriving DecidableEq, Repr

/-- The value `hasOnlyWelcomeEntry` (lines 220-221). -/
def hasOnlyWelcomeEntry (entries : List HumanEntry) : Bool :=
  match entries with
  | [e] => includes e.previewText (utf16 welcomeMarker)
  | _ => false

/-- The decision of lines 202-249 of `loadEntries`. -/
def bootstrapAction (today : DateTime) (entries : List HumanEntry) : BootAction :=
  let todayStart := newDate today.year today.month today.day
  let hasEmptyEntryToday := entries.any (isEmptyEntryToday todayStart)
  if entries.length = 0 then .createWelcome
  else if !hasEmptyEntryToday && !hasOnlyWelcomeEntry entries then .createBlank
  else
    match entries.find? (isEmptyEntryToday todayStart) with
    | some todayEntry => .select todayEntry
    | none =>
      if hasOnlyWelcomeEntry entries then
        match entries with
        | e :: _ => .select e
        | [] => .noAction
      else .noAction

/-! ## Creating, loading, saving, deleting -/

/-- The helper `pad` of `dateFormatter`: `num.toString().padStart(2, '0')`. -/
def pad (num : Nat) : JSString :=
  let digits := decimal num
  List.replicate (2 - digits.length) '0' ++ digits

/-- The helper `dateFormatter` of `createNewEntry` (lines 260-263). -/
def dateFormatter (date : DateTime) : JSString :=
  decimal date.year ++ '-' :: pad (date.month + 1) ++ '-' :: pad date.day ++
    '-' :: pad date.hours ++ '-' :: pad date.minutes ++ '-' :: pad date.seconds

/-- The welcome text written by `createNewEntry(true)` (line 270). -/
def welcomeContent : JSString :=
  ("\n\nWelcome to Freewrite.\n\nThis is a simple, distraction-free writing app " ++
   "to help you focus.\n\nSet a timer, pick a font size, and just start writing." ++
   "\n\nYour entries are saved automatically and can be accessed from the history " ++
   "sidebar.").toList

/-- The value `initialContent` of `createNewEntry` (lines 269-271). -/
def initialContent (isWelcome : Bool) : JSString :=
  if isWelcome then welcomeContent else ['\n', '\n']

/-- The file name built by `createNewEntry` (line 267). -/
def entryFilename (newId : JSString) (now : DateTime) : JSString :=
  '[' :: newId ++ ']' :: '-' :: '[' :: dateFormatter now ++ [']', '.', 'm', 'd']

/-- The entry `newEntry` of `createNewEntry` (lines 277-282). -/
def newEntryOf (newId : JSString) (now : DateTime) (isWelcome : Bool) : HumanEntry :=
  { id := newId
    date := monthShort.getD now.month [] ++ ' ' :: decimal now.day
    filename := entryFilename newId now
    previewText := if isWelcome then utf16 "Welcome to Freewrite.".toList else [] }

/-- The function `createNewEntry` (lines 257-290) with the identifier drawn by
`generateUUID` and the current time given; `writeOk = false` is a write that
throws, which the `catch` only logs. -/
def createNewEntry (writeOk : Bool) (newId : JSString) (now : DateTime)
    (isWelcome : Bool) (s : AppState) : AppState :=
  if writeOk then
    { entries := newEntryOf newId now isWelcome :: s.entries
      selectedEntryId := some newId
      text := initialContent isWelcome
      files := writeFile s.files (entryFilename newId now) (initialContent isWelcome) }
  else s

/-- The function `loadEntry` (lines 293-301): the buffer takes the file content;
a read that throws is only logged. -/
def loadEntry (entry : HumanEntry) (s : AppState) : AppState :=
  match readFile s.files entry.filename with
  | some content => { s with text := content }
  | none => s

/-- The `onPress` handler of a sidebar item (lines 567-571). -/
def selectEntry (item : HumanEntry) (s : AppState) : AppState :=
  loadEntry item { s with selectedEntryId := some item.id }

/-- The function `saveCurrentEntry` (lines 304-327); `writeOk = false` is a write
that throws. An id that is `null` or the empty string is falsy. -/
def saveCurrentEntry (writeOk : Bool) (s : AppState) : AppState :=
  match s.selectedEntryId with
  | none => s
  | some selectedEntryId =>
    if selectedEntryId = [] then s
    else
      match s.entries.find? (fun entry => entry.id = selectedEntryId) with
      | none => s
      | some currentEntry =>
        if writeOk then
          { s with
            files := writeFile s.files currentEntry.filename s.text
            entries := s.entries.map (fun entry =>
              if entry.id = selectedEntryId then
                { entry with previewText := previewText s.text }
              else entry) }
        else s

/-- The function `deleteEntry` (lines 357-382). `deleteOk = false` is a removal
that the storage refuses; `writeOk`, `newId` and `now` are what the call of
`createNewEntry` meets when it is reached. -/
def deleteEntry (deleteOk writeOk : Bool) (newId : JSString) (now : DateTime)
    (entryId : JSString) (s : AppState) : AppState :=
  match s.entries.find? (fun entry => entry.id = entryId) with
  | none => s
  | some entryToDelete =>
    match deleteFile deleteOk s.files entryToDelete.filename with
    | none => s
    | some files =>
      let s1 := { s with files := files,
                         entries := s.entries.filter (fun entry => entry.id ≠ entryId) }
      if s.selectedEntryId = some entryId then
        match (if s.entries.length > 1 then
                 s.entries.find? (fun entry => entry.id ≠ entryId) else none) with
        | some newSelectedEntry =>
          loadEntry newSelectedEntry { s1 with selectedEntryId := some newSelectedEntry.id }
        | none => createNewEntry writeOk newId now false s1
      else s1

/-- The function `loadEntries` (lines 147-254) on a directory that exists: the
listing replaces `entries`, then the bootstrap action is carried out. -/
def loadEntries (writeOk : Bool) (newId : JSString) (now today : DateTime)
    (s : AppState) : AppState :=
  let s1 := { s with entries := validEntries s.files }
  match bootstrapAction today s1.entries with
  | .createWelcome => createNewEntry writeOk newId now true s1
  | .createBlank => createNewEntry writeOk newId now false s1
  | .select entry => loadEntry entry { s1 with selectedEntryId := some entry.id }
  | .noAction => s1

/-! ## The auto-save effect -/

/-- The callback of the auto-save interval (lines 490-494): `if (selectedEntryId)
saveCurrentEntry()`, with a write that completes. -/
def autosaveTick (s : AppState) : AppState :=
  match s.selectedEntryId with
  | none => s
  | some selectedEntryId => if selectedEntryId = [] then s else saveCurrentEntry true s

/-- The interval callback run `k` times in a row. -/
def runTicks : Nat → AppState → AppState
  | 0, s => s
  | k + 1, s => runTicks k (autosaveTick s)

/-- A session together with its auto-save interval. Time is counted in
milliseconds; `nextSave` is the time at which the interval armed by the effect of
lines 489-497 fires next. -/
structure AutosaveState where
  app : AppState
  nextSave : Nat
deriving DecidableEq, Repr

/-- Time passes up to `time` with no change of `selectedEntryId` or `text`: the
interval fires at `nextSave`, `nextSave + 1000`, ... as long as that is not after
`time`. -/
def advance (time : Nat) (a : AutosaveState) : AutosaveState :=
  if a.nextSave ≤ time then
    let k := (time - a.nextSave) / 1000 + 1
    { app := runTicks k a.app, nextSave := a.nextSave + 1000 * k }
  else a

/-- The buffer changes at `time` (`setText`): the effect of lines 489-497 depends
on `text`, so its cleanup clears the interval and a new interval of 1000 ms is
armed. -/
def editAt (time : Nat) (text : JSString) (a : AutosaveState) : AutosaveState :=
  { app := { (advance time a).app with text := text }, nextSave := time + 1000 }

/-- A sequence of buffer changes, each with its time. -/
def runEdits (edits : List (Nat × JSString)) (a : AutosaveState) : AutosaveState :=
  edits.foldl (fun a e => editAt e.1 e.2 a) a

/-! ## The timer -/

/-- The React state `timeRemaining` and `timerIsRunning` (lines 43-44). -/
structure TimerState where
  timeRemaining : Int
  timerIsRunning : Bool
deriving DecidableEq, Repr

/-- The initial timer state: `useState(900)` and `useState(false)`. -/
def initialTimer : TimerState := { timeRemaining := 900, timerIsRunning := false }

/-- One firing of the timer interval (lines 105-113). The interval exists only
while `timerIsRunning` holds (lines 104 and 118-120). -/
def tick (s : TimerState) : TimerState :=
  if s.timerIsRunning then
    if s.timeRemaining ≤ 1 then { timeRemaining := 0, timerIsRunning := false }
    else { s with timeRemaining := s.timeRemaining - 1 }
  else s

/-- The function `toggleTimer` (lines 131-138). -/
def toggleTimer (s : TimerState) : TimerState :=
  if s.timeRemaining = 0 then { timeRemaining := 900, timerIsRunning := true }
  else { s with timerIsRunning := !s.timerIsRunning }

/-- The function `resetTimer` (lines 141-144). -/
def resetTimer (_ : TimerState) : TimerState :=
  { timeRemaining := 900, timerIsRunning := false }

/-- A step of the timer. -/
inductive TimerStep where
  | tick
  | toggle
  | reset
deriving DecidableEq, Repr

/-- The effect of one timer step. -/
def stepTimer (s : TimerState) : TimerStep → TimerState
  | .tick => tick s
  | .toggle => toggleTimer s
  | .reset => resetTimer s

/-- The timer state after a sequence of steps. -/
def runTimer (steps : List TimerStep) (s : TimerState) : TimerState :=
  steps.foldl stepTimer s

/-! ## `generateUUID` -/

/-- The template of `generateUUID` (line 386). -/
def uuidTemplate : JSString := "xxxxxxxx-xxxx-4xxx-yxxx-xxxxxxxxxxxx".toList

/-- The call `template.replace(/[xy]/g, ...)` of lines 386-390: the `i`-th `x` or
`y` takes the `i`-th draw `r = Math.random() * 16 | 0`, and is replaced by the
hexadecimal digit of `r` for `x` and of `r & 0x3 | 0x8` for `y`. -/
def replaceXY (draws : Nat → Fin 16) : Nat → JSString → JSString
  | _, [] => []
  | i, c :: cs =>
    if c = 'x' then Nat.digitChar (draws i).val :: replaceXY draws (i + 1) cs
    else if c = 'y' then
      Nat.digitChar ((draws i).val &&& 0x3 ||| 0x8) :: replaceXY draws (i + 1) cs
    else c :: replaceXY draws i cs

/-- The function `generateUUID` (lines 385-391) for a sequence of random draws. -/
def generateUUID (draws : Nat → Fin 16) : JSString := replaceXY draws 0 uuidTemplate

/-- Whether a character is a lowercase hexadecimal digit or a hyphen. -/
def isHexOrHyphen (c : Char) : Bool :=
  (48 ≤ c.toNat && c.toNat ≤ 57) || (97 ≤ c.toNat && c.toNat ≤ 102) || c = '-'

/-- The fields of a `Date` are in their ranges and the year has four digits. -/
def DateTime.FourDigitYear (d : DateTime) : Prop :=
  1000 ≤ d.year ∧ d.year ≤ 9999 ∧ d.month ≤ 11 ∧ 1 ≤ d.day ∧ d.day ≤ 31 ∧
  d.hours ≤ 23 ∧ d.minutes ≤ 59 ∧ d.seconds ≤ 59

/-! ## Search filter and month sections -/

/-- The effect of lines 500-512 that computes `filteredEntries`. The built-in
`String.prototype.toLowerCase` is the parameter `toLowerCase`; it and `includes`
act on the code units of the strings. -/
def filterEntries (toLowerCase : CodeUnits → CodeUnits) (searchQuery : JSString)
    (entries : List HumanEntry) : List HumanEntry :=
  if (trim searchQuery).isEmpty then entries
  else
    let query := toLowerCase (utf16 searchQuery)
    entries.filter (fun entry =>
      includes (toLowerCase (utf16 entry.date)) query ||
      includes (toLowerCase entry.previewText) query)

/-- The built-in `toLowerCase` on ASCII text: `A`..`Z` become `a`..`z`. -/
def asciiLowerCase (s : CodeUnits) : CodeUnits :=
  s.map (fun u => if 65 ≤ u ∧ u ≤ 90 then u + 32 else u)

/-- The key `monthYear` that `getSectionedEntries` computes for an entry (lines
520-526), `none` when the file name has no `[YYYY-MM` group. -/
def sectionTitle (entry : HumanEntry) : Option JSString :=
  match matchYearMonth entry.filename with
  | some g =>
    let parts := splitDash g
    let year := parseInt (parts.getD 0 [])
    let month := parseInt (parts.getD 1 [])
    let date := newDate year ((month : Int) - 1) 1
    some (monthYearOf date)
  | none => none

/-- The statements `if (!grouped[key]) grouped[key] = []` and
`grouped[key].push(entry)` (lines 528-532) on an object whose keys are kept in
insertion order. -/
def pushGrouped (key : JSString) (entry : HumanEntry) :
    List (JSString × List HumanEntry) → List (JSString × List HumanEntry)
  | [] => [(key, [entry])]
  | (k, es) :: rest =>
    if k = key then (k, es ++ [entry]) :: rest
    else (k, es) :: pushGrouped key entry rest

/-- The object `grouped` after the `forEach` of lines 518-534. -/
def groupEntries (filteredEntries : List HumanEntry) : List (JSString × List HumanEntry) :=
  filteredEntries.foldl
    (fun grouped entry =>
      match sectionTitle entry with
      | some monthYear => pushGrouped monthYear entry grouped
      | none => grouped)
    []

/-- The function `getSectionedEntries` (lines 515-541). -/
def getSectionedEntries (filteredEntries : List HumanEntry) : List Section :=
  (groupEntries filteredEntries).map (fun g => { title := g.1, data := g.2 })

/-- The invariant of the grouping loop: the keys are distinct, every group holds
exactly the processed entries with its key, in order, and is not empty, and
every processed entry that has a key has its group. -/
def GroupedInv (grouped : List (JSString × List HumanEntry)) (done : List HumanEntry) :
    Prop :=
  (grouped.map (fun g => g.1)).Nodup ∧
  (∀ g ∈ grouped, g.2 = done.filter (fun e => decide (sectionTitle e = some g.1)) ∧ g.2 ≠ []) ∧
  (∀ e ∈ done, ∀ t, sectionTitle e = some t → t ∈ grouped.map (fun g => g.1))

/-! ### The preview as the specification words it -/

/-- Replaces every run of whitespace by one space; the flag records whether the
previous character was whitespace. -/
def collapseRuns : Bool → JSString → JSString
  | _, [] => []
  | inRun, c :: cs =>
    if isWhiteSpace c then
      if inRun then collapseRuns true cs else ' ' :: collapseRuns true cs
    else c :: collapseRuns false cs

/-- Whitespace-collapsed content in the words of the specification: every run of
whitespace replaced by one space, leading and trailing whitespace removed. -/
def collapseWhitespace (s : JSString) : JSString := trim (collapseRuns false s)

/-- The preview in the words of the specification: the whitespace-collapsed
content, cut to 30 characters (counted as `.length` counts them) plus an ellipsis
when it is longer. -/
def specPreviewText (content : JSString) : CodeUnits :=
  let collapsed := utf16 (collapseWhitespace content)
  if collapsed.length > 30 then collapsed.take 30 ++ utf16 ellipsis else collapsed

/-! ### The naming convention as the specification words it -/

/-- The fixed-width date-time text `YYYY-MM-DD-HH-mm-ss`: digits and hyphens. -/
def timestampPattern : List Atom :=
  d4 ++ .lit '-' :: d2 ++ .lit '-' :: d2 ++ .lit '-' :: d2 ++ .lit '-' :: d2 ++ .lit '-' :: d2

/-- Whether a text is a zero-padded timestamp of the form `YYYY-MM-DD-HH-mm-ss`. -/
def isTimestamp (ts : JSString) : Bool := decide (matchHere timestampPattern ts = some ts)

/-- The file name `[<id>]-[<ts>].md` of the naming convention. -/
def conventionName (id ts : JSString) : JSString :=
  '[' :: id ++ ']' :: '-' :: '[' :: ts ++ [']', '.', 'm', 'd']

/-- A file name follows the naming convention `[<id>]-[<YYYY-MM-DD-HH-mm-ss>].md`,
where `<id>` contains no `]`. -/
def FollowsConvention (name : JSString) : Prop :=
  ∃ id ts, ']' ∉ id ∧ isTimestamp ts = true ∧ name = conventionName id ts

/-- The file names for which `loadEntries` builds an entry: they end in `.md` and
both patterns of lines 162-163 match somewhere in the name. -/
def accepted (name : JSString) : Bool :=
  endsWith name ['.', 'm', 'd'] && (matchUuid name).isSome && (matchDateTime name).isSome

/-- The `YYYY-MM-DD` text that the sort of `loadEntries` compares: group 1 of
`/\[(\d{4}-\d{2}-\d{2})/` in the file name, or `''`. -/
def sortKey (e : HumanEntry) : JSString := (matchYearMonthDay e.filename).getD []

/-- The full embedded timestamp of an entry: group 1 of the date-time pattern in
its file name, or `''`. -/
def timestampOf (e : HumanEntry) : JSString := (matchDateTime e.filename).getD []

/-! ### The calendar and the creation day as the specification words them -/

/-- Whether a year of the Gregorian calendar is a leap year. -/
def isLeapYear (y : Nat) : Bool := (y % 4 = 0 && y % 100 ≠ 0) || y % 400 = 0

/-- The number of days of a month (1..12) of a year. -/
def daysInMonth (y m : Nat) : Nat :=
  if m = 2 then (if isLeapYear y then 29 else 28)
  else if m = 4 ∨ m = 6 ∨ m = 9 ∨ m = 11 then 30 else 31

/-- A date of the calendar, with a year of at least 100 (the constructor
`new Date` reads the years 0..99 as 1900..1999). -/
def IsCalendarDate (y m d : Nat) : Prop :=
  100 ≤ y ∧ 1 ≤ m ∧ m ≤ 12 ∧ 1 ≤ d ∧ d ≤ daysInMonth y m

/-- The year written in a timestamp `YYYY-MM-DD-HH-mm-ss`. -/
def yearOf (ts : JSString) : Nat := parseInt (ts.take 4)

/-- The month (1..12) written in a timestamp `YYYY-MM-DD-HH-mm-ss`. -/
def monthOf (ts : JSString) : Nat := parseInt ((ts.drop 5).take 2)

/-- The day of the month written in a timestamp `YYYY-MM-DD-HH-mm-ss`. -/
def dayOf (ts : JSString) : Nat := parseInt ((ts.drop 8).take 2)

/-- An entry was created today, in the words of the claims: the timestamp
embedded in its file name has the calendar date of `today`. -/
def createdOn (today : DateTime) (e : HumanEntry) : Bool :=
  decide (yearOf (timestampOf e) = today.year) &&
  decide (monthOf (timestampOf e) = today.month + 1) &&
  decide (dayOf (timestampOf e) = today.day)

/-! ### Example inputs -/

/-- Two files of the same day, the older one listed first by the directory. -/
def sameDayFiles : FileStore :=
  [("[aa]-[2024-01-05-09-00-00].md".toList, "first".toList),
   ("[bb]-[2024-01-05-10-00-00].md".toList, "second".toList)]

/-- An entry `aa` created on 2024-01-05 at 09:00:00. -/
def entryA : HumanEntry :=
  { id := "aa".toList, date := "Jan 5".toList,
    filename := "[aa]-[2024-01-05-09-00-00].md".toList, previewText := utf16 "old text".toList }

/-- An entry `bb` created on 2024-01-04 at 10:00:00. -/
def entryB : HumanEntry :=
  { id := "bb".toList, date := "Jan 4".toList,
    filename := "[bb]-[2024-01-04-10-00-00].md".toList, previewText := utf16 "bee".toList }

/-- A session with the entries `aa` and `bb`, `aa` active, and an edit of the
buffer that has not been saved yet. -/
def editingState : AppState :=
  { entries := [entryA, entryB]
    selectedEntryId := some "aa".toList
    text := "new text".toList
    files := [("[aa]-[2024-01-05-09-00-00].md".toList, "old text".toList),
              ("[bb]-[2024-01-04-10-00-00].md".toList, "bee".toList)] }

/-- A session whose only entry `aa` is active. -/
def singleState : AppState :=
  { entries := [entryA]
    selectedEntryId := some "aa".toList
    text := "old text".toList
    files := [("[aa]-[2024-01-05-09-00-00].md".toList, "old text".toList)] }

/-- A creation time: 2024-01-06 07:08:09. -/
def sampleNow : DateTime :=
  { year := 2024, month := 0, day := 6, hours := 7, minutes := 8, seconds := 9 }

/-- An entry whose id `2000-01x` begins like a date; its file follows the naming
convention and its embedded timestamp is 2024-05-06 07:08:09. -/
def entryDateLikeId : HumanEntry :=
  { id := "2000-01x".toList, date := "May 6".toList,
    filename := "[2000-01x]-[2024-05-06-07-08-09].md".toList, previewText := utf16 "x".toList }

/-- An entry whose embedded timestamp has the year `0050`. -/
def entryYear50 : HumanEntry :=
  { id := "aa".toList, date := "Mar 1".toList,
    filename := "[aa]-[0050-03-01-00-00-00].md".toList, previewText := utf16 "x".toList }

/-- Two blank files of 2024-01-05, the older one listed first by the directory. -/
def twoBlankFiles : FileStore :=
  [("[aa]-[2024-01-05-09-00-00].md".toList, ['\n', '\n']),
   ("[bb]-[2024-01-05-10-00-00].md".toList, ['\n', '\n'])]

/-- The session `editingState` with its buffer saved, and the auto-save interval
armed at time 0. -/
def savedSession : AutosaveState :=
  { app := { editingState with text := "old text".toList }, nextSave := 1000 }

/-- Four buffer changes, 600 ms apart. -/
def rapidEdits : List (Nat × JSString) :=
  [(600, "a".toList), (1200, "ab".toList), (1800, "abc".toList), (2400, "abcd".toList)]

/-- The draws that are all 0. -/
def zeroDraws : Nat → Fin 16 := fun _ => 0

/-- A blank file created on 2020-05-05 whose id reads `2024-01-06`, and a file
with text created on 2024-01-01. -/
def misdatedFiles : FileStore :=
  [("[2024-01-06]-[2020-05-05-05-05-05].md".toList, ['\n', '\n']),
   ("[zz]-[2024-01-01-07-00-00].md".toList, "some text".toList)]

/-- A session at launch: nothing loaded yet, the given files in the directory. -/
def launchState (files : FileStore) : AppState :=
  { entries := [], selectedEntryId := none, text := [], files := files }

/-- The day 2024-01-05, at noon. -/
def noonJan5 : DateTime :=
  { year := 2024, month := 0, day := 5, hours := 12, minutes := 0, seconds := 0 }

/-- The entry listed for the blank file `[aa]-[2024-01-05-09-00-00].md`. -/
def blankEntryA : HumanEntry :=
  { id := "aa".toList, date := "Jan 5".toList,
    filename := "[aa]-[2024-01-05-09-00-00].md".toList, previewText := [] }

end Freewrite

/-! # Theorems -/

namespace Freewrite

/-! ## Preview text -/

theorem trimEnd_eq_rdropWhile (s : JSString) : trimEnd s = s.rdropWhile isWhiteSpace := rfl

theorem trimEnd_append_trailing (s : JSString) :
    ∃ b, s = trimEnd s ++ b ∧ ∀ c ∈ b, isWhiteSpace c = true := by
  refine ⟨(s.reverse.takeWhile isWhiteSpace).reverse, ?_, ?_⟩
  · have h := List.takeWhile_append_dropWhile isWhiteSpace s.reverse
    have h2 := congrArg List.reverse h
    simp only [List.reverse_append, List.reverse_reverse] at h2
    exact h2.symm
  · intro c hc
    rw [List.mem_reverse] at hc
    exact List.mem_takeWhile_imp hc

theorem trim_decompose (s : JSString) :
    ∃ a b, s = a ++ trim s ++ b ∧ (∀ c ∈ a, isWhiteSpace c = true) ∧
      (∀ c ∈ b, isWhiteSpace c = true) := by
  obtain ⟨b, hb, hbw⟩ := trimEnd_append_trailing (trimStart s)
  refine ⟨s.takeWhile isWhiteSpace, b, ?_, fun c hc => List.mem_takeWhile_imp hc, hbw⟩
  have h := List.takeWhile_append_dropWhile isWhiteSpace s
  rw [List.append_assoc]
  show s = _ ++ (trimEnd (trimStart s) ++ b)
  rw [← hb]
  exact h.symm

theorem trim_getLast_not_whiteSpace (s : JSString) (c : Char)
    (h : (trim s).getLast? = some c) : isWhiteSpace c = false := by
  have hne : (trimStart s).rdropWhile isWhiteSpace ≠ [] := by
    intro h0
    have : trim s = [] := h0
    rw [this] at h
    simp at h
  have hl := List.rdropWhile_last_not isWhiteSpace (trimStart s) hne
  have hc : ((trimStart s).rdropWhile isWhiteSpace).getLast hne = c := by
    have h1 : ((trimStart s).rdropWhile isWhiteSpace).getLast? = some c := h
    rw [List.getLast?_eq_getLast _ hne] at h1
    exact Option.some.inj h1
  rw [hc] at hl
  simpa using hl

theorem trim_head_not_whiteSpace (s : JSString) (c : Char)
    (h : (trim s).head? = some c) : isWhiteSpace c = false := by
  have hpre : trim s <+: trimStart s := List.rdropWhile_prefix isWhiteSpace (trimStart s)
  obtain ⟨t, ht⟩ := hpre
  have hd := List.head?_dropWhile_not isWhiteSpace s
  cases hts : trim s with
  | nil => rw [hts] at h; simp at h
  | cons x xs =>
    rw [hts] at h ht
    simp only [List.head?_cons, Option.some.injEq] at h
    have hs : s.dropWhile isWhiteSpace = x :: (xs ++ t) := by
      rw [← List.cons_append]; exact ht.symm
    rw [hs] at hd
    simp only [List.head?_cons] at hd
    rw [← h]; exact hd

theorem not_mem_replaceNewlines (s : JSString) : '\n' ∉ replaceNewlines s := by
  intro h
  simp only [replaceNewlines, List.mem_map] at h
  obtain ⟨c, _, hc⟩ := h
  split_ifs at hc with h1
  · exact absurd hc (by decide)
  · exact h1 hc

theorem utf16_append (s t : JSString) : utf16 (s ++ t) = utf16 s ++ utf16 t := by
  induction s with
  | nil => rfl
  | cons c cs ih => simp [utf16, ih]

theorem utf16_of_bmp (s : JSString) (h : ∀ c ∈ s, c.toNat < 0x10000) :
    utf16 s = s.map Char.toNat := by
  induction s with
  | nil => rfl
  | cons c cs ih =>
    have hc : c.toNat < 0x10000 := h c (List.mem_cons_self _ _)
    simp [utf16, utf16Char, hc, ih (fun x hx => h x (List.mem_cons_of_mem _ hx))]

theorem utf16_length (s : JSString) :
    (utf16 s).length = s.length + (s.filter (fun c => decide (0x10000 ≤ c.toNat))).length := by
  induction s with
  | nil => rfl
  | cons c cs ih =>
    by_cases hc : c.toNat < 0x10000
    · have hn : ¬ 0x10000 ≤ c.toNat := by omega
      simp only [utf16, utf16Char, hc, if_true, List.length_append, List.length_cons,
        List.length_nil, ih, List.filter_cons, hn, decide_False]
      simp only [Bool.false_eq_true, if_false]
      omega
    · have hn : 0x10000 ≤ c.toNat := by omega
      simp only [utf16, utf16Char, hc, if_false, List.length_append, List.length_cons,
        List.length_nil, ih, List.filter_cons, hn, decide_True, if_true]
      omega

/-- The preview counts and cuts UTF-16 code units. Sixteen characters U+1F600 are
32 code units, and the preview is the first fifteen of them (30 code units) and
the ellipsis; after one `a` the cut falls inside the fifteenth character and
leaves its high surrogate 0xD83D alone before the ellipsis. -/
theorem previewText_counts_code_units :
    previewText (List.replicate 16 (Char.ofNat 0x1F600)) =
      utf16 (List.replicate 15 (Char.ofNat 0x1F600)) ++ [46, 46, 46] ∧
    previewText ('a' :: List.replicate 15 (Char.ofNat 0x1F600)) =
      97 :: utf16 (List.replicate 14 (Char.ofNat 0x1F600)) ++ [0xD83D, 46, 46, 46] ∧
    previewText (List.replicate 15 (Char.ofNat 0x1F600)) =
      utf16 (List.replicate 15 (Char.ofNat 0x1F600)) := by
  decide

/-- C1 (counterexample): on the content `a  b` (two spaces) the code keeps both
spaces, while the whitespace-collapsed content has one; and on thirty-one
characters with a doubled space the code appends an ellipsis although the
collapsed text has only thirty characters. -/
theorem previewText_not_collapsed :
    previewText "a  b".toList = utf16 "a  b".toList ∧
    specPreviewText "a  b".toList = utf16 "a b".toList ∧
    previewText "a  b".toList ≠ specPreviewText "a  b".toList ∧
    previewText "a  bcdefghijklmnopqrstuvwxyz012".toList =
      utf16 "a  bcdefghijklmnopqrstuvwxyz01...".toList ∧
    (utf16 (collapseWhitespace "a  bcdefghijklmnopqrstuvwxyz012".toList)).length = 30 := by
  decide

/-- C1 (amended): the preview is computed from the text `p` obtained from the
content by replacing every line feed by a space and trimming whitespace at both
ends (inner runs are kept). With the characters counted as `.length` counts them,
in UTF-16 code units (one for a character of the Basic Multilingual Plane, two
for any other), the preview is `p` when `p` has at most 30 of them, and the first
30 code units of `p` followed by `...` otherwise, so the ellipsis is appended
(giving 33 code units) exactly when `p` is longer than 30. -/
theorem previewText_spec (content : JSString) :
    previewText content =
      (if (utf16 (trim (replaceNewlines content))).length ≤ 30
       then utf16 (trim (replaceNewlines content))
       else (utf16 (trim (replaceNewlines content))).take 30 ++ utf16 ellipsis) ∧
    ((previewText content).length = 33 ∧ utf16 ellipsis <:+ previewText content ∧
        (utf16 (trim (replaceNewlines content))).take 30 <+: previewText content ↔
      30 < (utf16 (trim (replaceNewlines content))).length) ∧
    (∃ a b, replaceNewlines content = a ++ trim (replaceNewlines content) ++ b ∧
      (∀ c ∈ a, isWhiteSpace c = true) ∧ (∀ c ∈ b, isWhiteSpace c = true)) ∧
    (∀ c, (trim (replaceNewlines content)).head? = some c → isWhiteSpace c = false) ∧
    (∀ c, (trim (replaceNewlines content)).getLast? = some c → isWhiteSpace c = false) ∧
    '\n' ∉ trim (replaceNewlines content) ∧
    replaceNewlines content = content.map (fun c => if c = '\n' then ' ' else c) ∧
    (∀ s : JSString, (utf16 s).length =
      s.length + (s.filter (fun c => decide (0x10000 ≤ c.toNat))).length) ∧
    (∀ s : JSString, (∀ c ∈ s, c.toNat < 0x10000) → utf16 s = s.map Char.toNat) ∧
    utf16 ellipsis = [46, 46, 46] := by
  have hp0 : ∀ q : JSString, q = trim (replaceNewlines content) →
      (previewText content = if (utf16 q).length > 30 then (utf16 q).take 30 ++ utf16 ellipsis
        else utf16 q) := by
    intro q hq
    subst hq
    rfl
  generalize hp : utf16 (trim (replaceNewlines content)) = p
  have hdef : previewText content = if p.length > 30 then p.take 30 ++ utf16 ellipsis else p := by
    rw [hp0 _ rfl, hp]
  refine ⟨?_, ?_, trim_decompose _, trim_head_not_whiteSpace _, trim_getLast_not_whiteSpace _,
    ?_, rfl, utf16_length, utf16_of_bmp, by decide⟩
  · rw [hdef]; split_ifs <;> first | rfl | omega
  · rw [hdef]
    by_cases h : p.length > 30
    · simp only [h, if_true, iff_true]
      refine ⟨?_, List.suffix_append _ _, List.prefix_append _ _⟩
      have ht : (p.take 30).length = 30 := List.length_take_of_le (Nat.le_of_lt h)
      have he3 : (utf16 ellipsis).length = 3 := by decide
      rw [List.length_append, ht, he3]
    · simp only [h, if_false, iff_false]
      intro ⟨h1, _, _⟩; omega
  · obtain ⟨a, b, hab, _, _⟩ := trim_decompose (replaceNewlines content)
    intro hmem
    apply not_mem_replaceNewlines content
    rw [hab]
    simp [hmem]

/-! ## Fixed-width patterns -/

theorem matchHere_length (p : List Atom) (s m : JSString) (h : matchHere p s = some m) :
    m.length = p.length := by
  induction p generalizing s m with
  | nil => simp [matchHere] at h; subst h; rfl
  | cons a as ih =>
    cases s with
    | nil => simp [matchHere] at h
    | cons c cs =>
      simp only [matchHere] at h
      split_ifs at h
      cases hm : matchHere as cs with
      | none => simp [hm] at h
      | some m1 =>
        simp [hm] at h; subst h
        simp [ih cs m1 hm]

theorem matchHere_exact (p : List Atom) (s m : JSString) (h : matchHere p s = some m) :
    matchHere p m = some m ∧ ∃ r, s = m ++ r := by
  induction p generalizing s m with
  | nil => simp [matchHere] at h; subst h; simp [matchHere]
  | cons a as ih =>
    cases s with
    | nil => simp [matchHere] at h
    | cons c cs =>
      simp only [matchHere] at h
      split_ifs at h with hc
      cases hm : matchHere as cs with
      | none => simp [hm] at h
      | some m1 =>
        simp [hm] at h; subst h
        obtain ⟨h1, r, hr⟩ := ih cs m1 hm
        refine ⟨by simp [matchHere, hc, h1], r, by simp [hr]⟩

theorem matchHere_append_right (p : List Atom) (s m r : JSString)
    (h : matchHere p s = some m) : matchHere p (s ++ r) = some m := by
  induction p generalizing s m with
  | nil => simp [matchHere] at h ⊢; exact h
  | cons a as ih =>
    cases s with
    | nil => simp [matchHere] at h
    | cons c cs =>
      simp only [matchHere, List.cons_append] at h ⊢
      split_ifs at h ⊢ with hc
      cases hm : matchHere as cs with
      | none => simp [hm] at h
      | some m1 => simp [hm] at h; subst h; simp [ih cs m1 hm]

theorem matchHere_append (p q : List Atom) (m s n : JSString)
    (hp : matchHere p m = some m) (hq : matchHere q s = some n) :
    matchHere (p ++ q) (m ++ s) = some (m ++ n) := by
  induction p generalizing m with
  | nil =>
    cases m with
    | nil => simpa using hq
    | cons c cs => simp [matchHere] at hp
  | cons a as ih =>
    cases m with
    | nil => simp [matchHere] at hp
    | cons c cs =>
      simp only [matchHere, List.cons_append] at hp ⊢
      split_ifs at hp ⊢ with hc
      cases hm : matchHere as cs with
      | none => simp [hm] at hp
      | some m1 =>
        simp [hm] at hp; subst hp
        simp [ih _ hm]

theorem matchHere_pattern_left (p q : List Atom) (s m : JSString)
    (h : matchHere (p ++ q) s = some m) : matchHere p s = some (m.take p.length) := by
  induction p generalizing s m with
  | nil => simp [matchHere]
  | cons a as ih =>
    cases s with
    | nil => simp [matchHere] at h
    | cons c cs =>
      simp only [matchHere, List.cons_append] at h ⊢
      split_ifs at h ⊢ with hc
      cases hm : matchHere (as ++ q) cs with
      | none => simp [hm] at h
      | some m1 =>
        simp [hm] at h; subst h
        simp [ih cs m1 hm]

/-- A match of a pattern none of whose positions accepts `]` cannot extend
beyond a `]`. -/
theorem matchHere_before_close (p : List Atom) (hp : ∀ a ∈ p, a.test ']' = false)
    (s tail m : JSString) (h : matchHere p (s ++ ']' :: tail) = some m) :
    matchHere p s = some m := by
  induction p generalizing s m with
  | nil => simpa [matchHere] using h
  | cons a as ih =>
    cases s with
    | nil =>
      simp only [matchHere, List.nil_append] at h
      rw [hp a (List.mem_cons_self _ _)] at h
      simp at h
    | cons c cs =>
      simp only [matchHere, List.cons_append] at h ⊢
      split_ifs at h ⊢ with hc
      cases hm : matchHere as (cs ++ ']' :: tail) with
      | none => simp [hm] at h
      | some m1 =>
        simp [hm] at h; subst h
        simp [ih (fun a ha => hp a (List.mem_cons_of_mem _ ha)) cs m1 hm]

/-- A match of `p` followed by `\]` on a text whose first `]` comes after `s`
covers exactly `s`. -/
theorem matchHere_closed (p : List Atom) (hp : ∀ a ∈ p, a.test ']' = false)
    (s tail m : JSString) (hs : ']' ∉ s)
    (h : matchHere (p ++ [.lit ']']) (s ++ ']' :: tail) = some m) :
    matchHere p s = some s := by
  induction p generalizing s m with
  | nil =>
    cases s with
    | nil => simp [matchHere]
    | cons c cs =>
      have hc : c ≠ ']' := fun hc => hs (by simp [hc])
      simp [matchHere, Atom.test, hc] at h
  | cons a as ih =>
    cases s with
    | nil =>
      simp only [matchHere, List.nil_append, List.cons_append] at h
      rw [hp a (List.mem_cons_self _ _)] at h
      simp at h
    | cons c cs =>
      simp only [matchHere, List.cons_append] at h ⊢
      split_ifs at h ⊢ with hc
      cases hm : matchHere (as ++ [.lit ']']) (cs ++ ']' :: tail) with
      | none => simp [hm] at h
      | some m1 =>
        have hcs : ']' ∉ cs := fun hmem => hs (List.mem_cons_of_mem _ hmem)
        simp [ih (fun a ha => hp a (List.mem_cons_of_mem _ ha)) cs m1 hcs hm]

theorem search_eq_none_iff (p : List Atom) (hp : p ≠ []) (s : JSString) :
    search p s = none ↔ ∀ t, t <:+ s → matchHere p t = none := by
  induction s with
  | nil =>
    cases p with
    | nil => exact absurd rfl hp
    | cons a as =>
      simp [search, matchHere]
  | cons c cs ih =>
    simp only [search]
    constructor
    · intro h t ht
      cases hm : matchHere p (c :: cs) with
      | some m => simp [hm] at h
      | none =>
        simp only [hm] at h
        rcases List.suffix_cons_iff.mp ht with rfl | ht2
        · exact hm
        · exact (ih.mp h) t ht2
    · intro h
      have h1 := h (c :: cs) (List.suffix_refl _)
      simp only [h1]
      exact ih.mpr (fun t ht => h t (ht.trans (List.suffix_cons _ _)))

/-- The leftmost-match search skips a stretch of text in which no position
starts a match. -/
theorem search_append_skip (p : List Atom) (pre rest : JSString)
    (h : ∀ t, t ≠ [] → t <:+ pre → matchHere p (t ++ rest) = none) :
    search p (pre ++ rest) = search p rest := by
  induction pre with
  | nil => rfl
  | cons c cs ih =>
    have h1 := h (c :: cs) (by simp) (List.suffix_refl _)
    rw [List.cons_append] at h1
    rw [List.cons_append, search, h1]
    exact ih (fun t ht hs => h t ht (hs.trans (List.suffix_cons _ _)))


theorem matchHere_chars (p : List Atom) (Q : Char → Prop)
    (hp : ∀ a ∈ p, ∀ c, a.test c = true → Q c) (s m : JSString)
    (h : matchHere p s = some m) : ∀ c ∈ m, Q c := by
  induction p generalizing s m with
  | nil => simp [matchHere] at h; subst h; simp
  | cons a as ih =>
    cases s with
    | nil => simp [matchHere] at h
    | cons c cs =>
      simp only [matchHere] at h
      split_ifs at h with hc
      cases hm : matchHere as cs with
      | none => simp [hm] at h
      | some m1 =>
        simp [hm] at h; subst h
        intro x hx
        rcases List.mem_cons.mp hx with rfl | hx
        · exact hp a (List.mem_cons_self _ _) _ hc
        · exact ih (fun a ha => hp a (List.mem_cons_of_mem _ ha)) cs m1 hm x hx

theorem search_isSome_of_matchHere (p : List Atom) (pre t m : JSString)
    (h : matchHere p t = some m) : (search p (pre ++ t)).isSome = true := by
  induction pre with
  | nil =>
    cases t with
    | nil => simpa [search] using congrArg Option.isSome h
    | cons c cs => simp [search, h]
  | cons c cs ih =>
    rw [List.cons_append, search]
    cases hm : matchHere p (c :: (cs ++ t)) with
    | some m1 => rfl
    | none => exact ih

/-! ## The lazy bracket pattern -/

theorem lazyUntilClose_eq (g rest : JSString) (h1 : ']' ∉ g)
    (h2 : ∀ c ∈ g, isLineTerminator c = false) :
    lazyUntilClose (g ++ ']' :: rest) = some g := by
  induction g with
  | nil => simp [lazyUntilClose]
  | cons c cs ih =>
    have hc : c ≠ ']' := fun hc => h1 (by simp [hc])
    have hl : isLineTerminator c = false := h2 c (List.mem_cons_self _ _)
    have hcs : ']' ∉ cs := fun hm => h1 (List.mem_cons_of_mem _ hm)
    simp [lazyUntilClose, hc, hl, ih hcs (fun x hx => h2 x (List.mem_cons_of_mem _ hx))]

theorem matchUuid_isSome (pre s : JSString) (h : (lazyUntilClose s).isSome = true) :
    (matchUuid (pre ++ '[' :: s)).isSome = true := by
  induction pre with
  | nil =>
    cases hl : lazyUntilClose s with
    | none => simp [hl] at h
    | some g => simp [matchUuid, hl]
  | cons c cs ih =>
    rw [List.cons_append, matchUuid]
    split_ifs
    · cases hl : lazyUntilClose (cs ++ '[' :: s) with
      | none => simpa using ih
      | some g => rfl
    · exact ih

/-! ## Timestamps -/

theorem dateTimePattern_eq :
    dateTimePattern = (.lit '[' :: timestampPattern) ++ [.lit ']'] := by decide

theorem openTimestamp_rejects_close :
    ∀ a ∈ Atom.lit '[' :: timestampPattern, a.test ']' = false := by decide

theorem timestamp_chars (ts : JSString) (h : isTimestamp ts = true) :
    ∀ c ∈ ts, c ≠ ']' ∧ isLineTerminator c = false := by
  have hm : matchHere timestampPattern ts = some ts := by simpa [isTimestamp] using h
  refine matchHere_chars timestampPattern _ ?_ ts ts hm
  intro a ha c hc
  have hall : ∀ b ∈ timestampPattern, b = Atom.digit ∨ b = Atom.lit '-' := by decide
  have hcases := hall a ha
  rcases hcases with rfl | rfl
  · simp only [Atom.test, Bool.and_eq_true, decide_eq_true_eq] at hc
    constructor
    · intro h0; subst h0; revert hc; decide
    · simp only [isLineTerminator, Bool.or_eq_false_iff, decide_eq_false_iff_not]
      omega
  · simp only [Atom.test, decide_eq_true_eq] at hc
    subst hc
    decide

theorem matchHere_dateTime (ts rest : JSString) (h : isTimestamp ts = true) :
    matchHere dateTimePattern ('[' :: (ts ++ ']' :: rest)) = some ('[' :: (ts ++ [']'])) := by
  have hm : matchHere timestampPattern ts = some ts := by simpa [isTimestamp] using h
  rw [dateTimePattern_eq]
  have h1 : matchHere (.lit '[' :: timestampPattern) ('[' :: ts) = some ('[' :: ts) := by
    simp [matchHere, Atom.test, hm]
  have h2 : matchHere [.lit ']'] (']' :: rest) = some [']'] := by
    simp [matchHere, Atom.test]
  have h3 := matchHere_append _ _ _ _ _ h1 h2
  simpa using h3


theorem matchHere_head_ne (q : List Atom) (c : Char) (cs : JSString) (h : c ≠ '[') :
    matchHere (.lit '[' :: q) (c :: cs) = none := by
  simp [matchHere, Atom.test, h]

/-- In a file name `[id]-tail` the search for a pattern that starts with `\[`
passes over `[id]-` when no position inside `[id` starts a match. -/
theorem search_convention (q : List Atom) (id tail : JSString)
    (hskip : ∀ t, t ≠ [] → t <:+ '[' :: id →
      matchHere (.lit '[' :: q) (t ++ ']' :: '-' :: tail) = none) :
    search (.lit '[' :: q) ('[' :: id ++ ']' :: '-' :: tail) = search (.lit '[' :: q) tail := by
  have h1 := search_append_skip (.lit '[' :: q) ('[' :: id) (']' :: '-' :: tail) hskip
  rw [h1, search, matchHere_head_ne q ']' _ (by decide), search,
    matchHere_head_ne q '-' _ (by decide)]

theorem timestamp_length (ts : JSString) (h : isTimestamp ts = true) : ts.length = 19 := by
  have hm : matchHere timestampPattern ts = some ts := by simpa [isTimestamp] using h
  exact matchHere_length _ _ _ hm

theorem not_mem_of_suffix_open (id t : JSString) (h1 : ']' ∉ id) (ht : t <:+ '[' :: id) :
    ']' ∉ t := by
  intro hmem
  have h2 : ']' ∈ '[' :: id := ht.subset hmem
  rcases List.mem_cons.mp h2 with h3 | h3
  · exact absurd h3 (by decide)
  · exact h1 h3

theorem conventionName_eq (id ts : JSString) :
    conventionName id ts =
      '[' :: id ++ ']' :: '-' :: ('[' :: (ts ++ ']' :: ['.', 'm', 'd'])) := by
  simp [conventionName]

theorem search_dateTime_convention (id ts : JSString) (h1 : ']' ∉ id)
    (h3 : isTimestamp ts = true)
    (h4 : ∀ t, isTimestamp t = true → ¬ ('[' :: t) <:+ ('[' :: id)) :
    search dateTimePattern (conventionName id ts) = some ('[' :: (ts ++ [']'])) := by
  have hdt : dateTimePattern = .lit '[' :: (timestampPattern ++ [.lit ']']) := by decide
  rw [conventionName_eq, hdt, search_convention]
  · rw [← hdt, search, matchHere_dateTime ts _ h3]
  · intro t htne ht
    cases hm : matchHere (.lit '[' :: (timestampPattern ++ [.lit ']']))
        (t ++ ']' :: '-' :: ('[' :: (ts ++ ']' :: ['.', 'm', 'd']))) with
    | none => rfl
    | some m =>
      exfalso
      have hclosed := matchHere_closed (.lit '[' :: timestampPattern)
        openTimestamp_rejects_close t _ m (not_mem_of_suffix_open id t h1 ht) hm
      cases t with
      | nil => exact htne rfl
      | cons c cs =>
        simp only [matchHere] at hclosed
        split_ifs at hclosed with hc
        simp only [Atom.test, decide_eq_true_eq] at hc
        subst hc
        cases hcs : matchHere timestampPattern cs with
        | none => simp [hcs] at hclosed
        | some m1 =>
          simp [hcs] at hclosed
          subst hclosed
          exact h4 m1 (by simp [isTimestamp, hcs]) ht

/-- C4 (counterexample): an id that is itself a timestamp is returned as the
date string instead of `ts`, and an id holding a line feed is not returned as
the id (the first bracketed group that `.` can cross is the timestamp). -/
theorem parse_convention_name_fails :
    ']' ∉ "2000-01-01-00-00-00".toList ∧ ']' ∉ "a\nb".toList ∧
    isTimestamp "2024-05-06-07-08-09".toList = true ∧
    matchDateTime (conventionName "2000-01-01-00-00-00".toList "2024-05-06-07-08-09".toList)
      = some "2000-01-01-00-00-00".toList ∧
    matchDateTime (conventionName "2000-01-01-00-00-00".toList "2024-05-06-07-08-09".toList)
      ≠ some "2024-05-06-07-08-09".toList ∧
    matchUuid (conventionName "a\nb".toList "2024-05-06-07-08-09".toList)
      = some "2024-05-06-07-08-09".toList ∧
    matchUuid (conventionName "a\nb".toList "2024-05-06-07-08-09".toList)
      ≠ some "a\nb".toList := by
  decide

/-- C4 (amended): for every id that contains no `]` and no line terminator and
such that `[id` does not end in `[` followed by a timestamp, and every
timestamp `ts` of the form `YYYY-MM-DD-HH-mm-ss`, the two patterns of
`loadEntries` applied to `[id]-[ts].md` yield exactly `id` and `ts`, and the
entry built from the file has that id and that file name. -/
theorem parse_convention_name (id ts : JSString) (h1 : ']' ∉ id)
    (h2 : ∀ c ∈ id, isLineTerminator c = false) (h3 : isTimestamp ts = true)
    (h4 : ∀ t, isTimestamp t = true → ¬ ('[' :: t) <:+ ('[' :: id)) :
    matchUuid (conventionName id ts) = some id ∧
    matchDateTime (conventionName id ts) = some ts ∧
    ∀ content, ∃ e, parseEntry (conventionName id ts) content = some e ∧ e.id = id ∧
      e.filename = conventionName id ts ∧ e.previewText = previewText content := by
  have hu : matchUuid (conventionName id ts) = some id := by
    rw [conventionName_eq, List.cons_append, matchUuid, if_pos rfl,
      lazyUntilClose_eq id _ h1 h2]
  have hd : matchDateTime (conventionName id ts) = some ts := by
    simp [matchDateTime, search_dateTime_convention id ts h1 h3 h4]
  refine ⟨hu, hd, fun content => ?_⟩
  simp [parseEntry, hu, hd]

/-- C4 (witness): the file name `[abc]-[2024-01-05-10-11-12].md` parses to the
id `abc` and the date string `2024-01-05-10-11-12`. -/
theorem parse_convention_name_witness :
    matchUuid (conventionName "abc".toList "2024-01-05-10-11-12".toList) = some "abc".toList ∧
    matchDateTime (conventionName "abc".toList "2024-01-05-10-11-12".toList)
      = some "2024-01-05-10-11-12".toList :=
  have h := parse_convention_name "abc".toList "2024-01-05-10-11-12".toList (by decide)
    (by decide) (by decide)
    (by
      intro t ht hsuf
      have hl := timestamp_length t ht
      have h2 := hsuf.length_le
      simp only [List.length_cons, hl] at h2
      revert h2
      decide)
  ⟨h.1, h.2.1⟩


/-! ## Sorting -/

theorem localeCompare_self (a : JSString) : localeCompare a a = 0 := by
  induction a with
  | nil => rfl
  | cons c cs ih => simp [localeCompare, ih]

theorem localeCompare_total (a b : JSString) :
    localeCompare a b ≤ 0 ∨ localeCompare b a ≤ 0 := by
  induction a generalizing b with
  | nil => cases b <;> simp [localeCompare]
  | cons c cs ih =>
    cases b with
    | nil => simp [localeCompare]
    | cons d ds =>
      simp only [localeCompare]
      split_ifs <;> first | omega | exact ih ds

theorem localeCompare_trans (a b c : JSString) (h1 : localeCompare a b ≤ 0)
    (h2 : localeCompare b c ≤ 0) : localeCompare a c ≤ 0 := by
  induction a generalizing b c with
  | nil => cases c <;> simp [localeCompare]
  | cons x xs ih =>
    cases b with
    | nil => simp [localeCompare] at h1
    | cons y ys =>
      cases c with
      | nil => simp [localeCompare] at h2
      | cons z zs =>
        simp only [localeCompare] at h1 h2 ⊢
        split_ifs at h1 h2 ⊢ <;> first | omega | exact ih ys zs h1 h2

theorem insertSorted_perm {α : Type} (cmp : α → α → Int) (x : α) (l : List α) :
    (insertSorted cmp x l).Perm (x :: l) := by
  induction l with
  | nil => exact List.Perm.refl _
  | cons y ys ih =>
    simp only [insertSorted]
    split_ifs
    · exact List.Perm.refl _
    · exact (List.Perm.cons y ih).trans (List.Perm.swap x y ys)

theorem arraySort_perm {α : Type} (cmp : α → α → Int) (l : List α) :
    (arraySort cmp l).Perm l := by
  induction l with
  | nil => exact List.Perm.refl _
  | cons x xs ih =>
    exact (insertSorted_perm cmp x _).trans (List.Perm.cons x ih)

theorem insertSorted_pairwise {α : Type} (cmp : α → α → Int)
    (htot : ∀ a b, cmp a b ≤ 0 ∨ cmp b a ≤ 0)
    (htr : ∀ a b c, cmp a b ≤ 0 → cmp b c ≤ 0 → cmp a c ≤ 0) (x : α) (l : List α)
    (h : l.Pairwise (fun a b => cmp a b ≤ 0)) :
    (insertSorted cmp x l).Pairwise (fun a b => cmp a b ≤ 0) := by
  induction l with
  | nil => simp [insertSorted]
  | cons y ys ih =>
    simp only [insertSorted]
    rw [List.pairwise_cons] at h
    split_ifs with hxy
    · refine List.Pairwise.cons ?_ (List.Pairwise.cons h.1 h.2)
      intro z hz
      rcases List.mem_cons.mp hz with rfl | hz
      · exact hxy
      · exact htr x y z hxy (h.1 z hz)
    · refine List.Pairwise.cons ?_ (ih h.2)
      intro z hz
      have hz2 : z ∈ x :: ys := (insertSorted_perm cmp x ys).subset hz
      rcases List.mem_cons.mp hz2 with rfl | hz3
      · rcases htot z y with h0 | h0
        · exact absurd h0 hxy
        · exact h0
      · exact h.1 z hz3

theorem arraySort_pairwise {α : Type} (cmp : α → α → Int)
    (htot : ∀ a b, cmp a b ≤ 0 ∨ cmp b a ≤ 0)
    (htr : ∀ a b c, cmp a b ≤ 0 → cmp b c ≤ 0 → cmp a c ≤ 0) (l : List α) :
    (arraySort cmp l).Pairwise (fun a b => cmp a b ≤ 0) := by
  induction l with
  | nil => exact List.Pairwise.nil
  | cons x xs ih => exact insertSorted_pairwise cmp htot htr x _ ih

/-- The sort is stable: elements that compare as equal among themselves keep
their order. -/
theorem insertSorted_filter {α : Type} (cmp : α → α → Int) (P : α → Bool)
    (hP : ∀ a b, P a = true → P b = true → cmp a b ≤ 0) (x : α) (l : List α) :
    (insertSorted cmp x l).filter P = (x :: l).filter P := by
  induction l with
  | nil => rfl
  | cons y ys ih =>
    simp only [insertSorted]
    split_ifs with hxy
    · rfl
    · rw [List.filter_cons, ih]
      by_cases hx : P x = true
      · by_cases hy : P y = true
        · exact absurd (hP x y hx hy) hxy
        · simp [List.filter_cons, hx, hy]
      · simp [List.filter_cons, hx]

theorem arraySort_filter {α : Type} (cmp : α → α → Int) (P : α → Bool)
    (hP : ∀ a b, P a = true → P b = true → cmp a b ≤ 0) (l : List α) :
    (arraySort cmp l).filter P = l.filter P := by
  induction l with
  | nil => rfl
  | cons x xs ih =>
    simp only [arraySort]
    rw [insertSorted_filter cmp P hP, List.filter_cons, List.filter_cons, ih]


/-! ## `loadEntries`: the listing -/

theorem compareEntries_total (a b : HumanEntry) :
    compareEntries a b ≤ 0 ∨ compareEntries b a ≤ 0 :=
  localeCompare_total _ _

theorem compareEntries_trans (a b c : HumanEntry) (h1 : compareEntries a b ≤ 0)
    (h2 : compareEntries b c ≤ 0) : compareEntries a c ≤ 0 :=
  localeCompare_trans _ _ _ h2 h1

theorem parseEntry_filename (name content : JSString) (e : HumanEntry)
    (h : parseEntry name content = some e) :
    e.filename = name ∧ e.previewText = previewText content := by
  unfold parseEntry at h
  split at h
  · simp only [Option.some.injEq] at h
    subst h
    exact ⟨rfl, rfl⟩
  · exact absurd h (by simp)

theorem parseEntry_isSome (name content : JSString) :
    (parseEntry name content).isSome =
      ((matchUuid name).isSome && (matchDateTime name).isSome) := by
  unfold parseEntry
  cases h1 : matchUuid name <;> cases h2 : matchDateTime name <;> simp

theorem loadedEntries_filenames (files : FileStore) :
    (loadedEntries files).map (fun e => e.filename) =
      (files.map (fun f => f.1)).filter accepted := by
  induction files with
  | nil => rfl
  | cons f fs ih =>
    have hstep : loadedEntries (f :: fs) =
        (if endsWith f.1 ['.', 'm', 'd'] then
          (match parseEntry f.1 f.2 with
           | some e => [e]
           | none => []) else []) ++ loadedEntries fs := by
      simp only [loadedEntries, List.filter_cons]
      split_ifs with hmd
      · cases hp : parseEntry f.1 f.2 <;> simp [hp]
      · simp
    rw [hstep, List.map_append, ih, List.map_cons, List.filter_cons]
    have hacc : accepted f.1 =
        (endsWith f.1 ['.', 'm', 'd'] && (parseEntry f.1 f.2).isSome) := by
      rw [parseEntry_isSome]; simp [accepted, Bool.and_assoc]
    rw [hacc]
    by_cases hmd : endsWith f.1 ['.', 'm', 'd'] = true
    · cases hp : parseEntry f.1 f.2 with
      | none => simp [hmd]
      | some e => simp [hmd, (parseEntry_filename _ _ _ hp).1]
    · simp [hmd]

theorem endsWith_conventionName (id ts : JSString) :
    endsWith (conventionName id ts) ['.', 'm', 'd'] = true := by
  simp [endsWith, conventionName]

/-- Every file named by the convention is accepted by `loadEntries`. -/
theorem accepted_of_followsConvention (name : JSString) (h : FollowsConvention name) :
    accepted name = true := by
  obtain ⟨id, ts, _, hts, rfl⟩ := h
  have hm := matchHere_dateTime ts ['.', 'm', 'd'] hts
  have hchars := timestamp_chars ts hts
  have hname : conventionName id ts =
      ('[' :: id ++ [']', '-']) ++ '[' :: (ts ++ ']' :: ['.', 'm', 'd']) := by
    simp [conventionName]
  have h1 : (matchUuid (conventionName id ts)).isSome = true := by
    rw [hname]
    apply matchUuid_isSome
    rw [lazyUntilClose_eq ts _ (fun hmem => (hchars _ hmem).1 rfl)
      (fun c hc => (hchars c hc).2)]
    rfl
  have h2 : (matchDateTime (conventionName id ts)).isSome = true := by
    have h3 := search_isSome_of_matchHere dateTimePattern ('[' :: id ++ [']', '-']) _ _ hm
    rw [← hname] at h3
    simp only [matchDateTime, Option.isSome_map']
    exact h3
  simp [accepted, endsWith_conventionName, h1, h2]


/-- The search for an opening pattern (a prefix of the date-time pattern that
accepts no `]`) in a file name of the convention finds the start of the
timestamp, when `[id` holds no match of it. -/
theorem search_open_convention (q q2 : List Atom)
    (hdt : dateTimePattern = (.lit '[' :: q) ++ q2) (hq2 : 0 < q2.length)
    (hrej : ∀ a ∈ Atom.lit '[' :: q, a.test ']' = false) (id ts : JSString)
    (hclean : search (.lit '[' :: q) ('[' :: id) = none) (hts : isTimestamp ts = true) :
    search (.lit '[' :: q) (conventionName id ts) = some (('[' :: ts).take (q.length + 1)) := by
  rw [conventionName_eq, search_convention]
  · have hm := matchHere_dateTime ts ['.', 'm', 'd'] hts
    rw [hdt] at hm
    have h1 := matchHere_pattern_left _ _ _ _ hm
    rw [search, h1]
    have hl := timestamp_length ts hts
    have hq : (Atom.lit '[' :: q).length ≤ ('[' :: ts).length := by
      have h2 := congrArg List.length hdt
      have h3 : dateTimePattern.length = 21 := by decide
      simp only [List.length_append, List.length_cons, h3] at h2
      simp only [List.length_cons, hl]
      omega
    have h4 : '[' :: (ts ++ [']']) = ('[' :: ts) ++ [']'] := rfl
    rw [h4, List.take_append_of_le_length hq]
    rfl
  · intro t htne ht
    cases hm : matchHere (.lit '[' :: q) (t ++ ']' :: '-' :: ('[' :: (ts ++ ']' :: ['.', 'm', 'd']))) with
    | none => rfl
    | some m =>
      exfalso
      have h1 := matchHere_before_close _ hrej t _ m hm
      have h2 := (search_eq_none_iff (.lit '[' :: q) (by simp) ('[' :: id)).mp hclean t ht
      rw [h1] at h2
      exact absurd h2 (by simp)

theorem matchYearMonthDay_convention (id ts : JSString)
    (hclean : search yearMonthDayPattern ('[' :: id) = none) (hts : isTimestamp ts = true) :
    matchYearMonthDay (conventionName id ts) = some (ts.take 10) := by
  have h := search_open_convention
    (d4 ++ .lit '-' :: d2 ++ .lit '-' :: d2)
    (.lit '-' :: d2 ++ .lit '-' :: d2 ++ .lit '-' :: d2 ++ [.lit ']'])
    (by decide) (by decide) (by decide) id ts hclean hts
  have hp : yearMonthDayPattern = .lit '[' :: (d4 ++ .lit '-' :: d2 ++ .lit '-' :: d2) := by
    decide
  rw [matchYearMonthDay, hp, h]
  rfl

theorem matchYearMonth_convention (id ts : JSString)
    (hclean : search yearMonthPattern ('[' :: id) = none) (hts : isTimestamp ts = true) :
    matchYearMonth (conventionName id ts) = some (ts.take 7) := by
  have h := search_open_convention
    (d4 ++ .lit '-' :: d2)
    (.lit '-' :: d2 ++ .lit '-' :: d2 ++ .lit '-' :: d2 ++ .lit '-' :: d2 ++ [.lit ']'])
    (by decide) (by decide) (by decide) id ts hclean hts
  have hp : yearMonthPattern = .lit '[' :: (d4 ++ .lit '-' :: d2) := by decide
  rw [matchYearMonth, hp, h]
  rfl

/-- C2 (the code at the failing input): two validly-named files of the same day
that the directory lists oldest first stay in that order, so the entry with the
smaller full timestamp comes first and the list is not sorted by the full
timestamp. -/
theorem validEntries_not_sorted_by_timestamp :
    FollowsConvention "[aa]-[2024-01-05-09-00-00].md".toList ∧
    FollowsConvention "[bb]-[2024-01-05-10-00-00].md".toList ∧
    (validEntries sameDayFiles).map timestampOf =
      ["2024-01-05-09-00-00".toList, "2024-01-05-10-00-00".toList] ∧
    ¬ (validEntries sameDayFiles).Chain'
      (fun a b => localeCompare (timestampOf b) (timestampOf a) ≤ 0) := by
  have hm : (validEntries sameDayFiles).map timestampOf =
      ["2024-01-05-09-00-00".toList, "2024-01-05-10-00-00".toList] := by decide
  refine ⟨⟨"aa".toList, "2024-01-05-09-00-00".toList, by decide, by decide, by decide⟩,
    ⟨"bb".toList, "2024-01-05-10-00-00".toList, by decide, by decide, by decide⟩,
    hm, ?_⟩
  intro h
  generalize validEntries sameDayFiles = l at hm h
  match l, hm, h with
  | [], hm, _ => simp at hm
  | [_], hm, _ => simp at hm
  | _ :: _ :: _ :: _, hm, _ => simp at hm
  | [a, b], hm, h =>
    simp only [List.map_cons, List.map_nil, List.cons.injEq, and_true] at hm
    simp only [List.chain'_cons, List.chain'_singleton, and_true] at h
    rw [hm.1, hm.2] at h
    revert h
    decide

/-- What the sort of `loadEntries` does achieve: the entry list is sorted,
descending, by the calendar date `YYYY-MM-DD` that the comparator reads from the
file name (its first `[YYYY-MM-DD` group, which is the date of the embedded
timestamp when `[id` holds no such group); the time of day is not compared, and
entries with the same date keep the order of the directory listing. -/
theorem validEntries_sorted_by_date (files : FileStore) :
    (validEntries files).Pairwise
      (fun a b => localeCompare (sortKey b) (sortKey a) ≤ 0) ∧
    (validEntries files).Chain'
      (fun a b => localeCompare (sortKey b) (sortKey a) ≤ 0) ∧
    (∀ k, (validEntries files).filter (fun e => decide (sortKey e = k)) =
      (loadedEntries files).filter (fun e => decide (sortKey e = k))) ∧
    (∀ id ts e, search yearMonthDayPattern ('[' :: id) = none → isTimestamp ts = true →
      e.filename = conventionName id ts → sortKey e = ts.take 10) := by
  have hpw : (validEntries files).Pairwise
      (fun a b => localeCompare (sortKey b) (sortKey a) ≤ 0) :=
    arraySort_pairwise compareEntries compareEntries_total compareEntries_trans _
  refine ⟨hpw, hpw.chain', ?_, ?_⟩
  · intro k
    apply arraySort_filter
    intro a b ha hb
    simp only [decide_eq_true_eq] at ha hb
    show localeCompare (sortKey b) (sortKey a) ≤ 0
    rw [ha, hb, localeCompare_self]
  · intro id ts e hclean hts he
    simp [sortKey, he, matchYearMonthDay_convention id ts hclean hts]

theorem conventionName_length (id ts : JSString) :
    (conventionName id ts).length = id.length + ts.length + 8 := by
  simp [conventionName]; omega

/-- C3 (counterexample): the name `[2024-01-01-00-00-00].md` does not follow the
convention `[<id>]-[<timestamp>].md`, yet `loadEntries` builds an entry for it
(both patterns match the one bracketed group). -/
theorem validEntries_accepts_other_names :
    ¬ FollowsConvention "[2024-01-01-00-00-00].md".toList ∧
    (validEntries [("[2024-01-01-00-00-00].md".toList, "x".toList)]).map
      (fun e => (e.id, e.filename)) =
      [("2024-01-01-00-00-00".toList, "[2024-01-01-00-00-00].md".toList)] := by
  refine ⟨?_, by decide⟩
  rintro ⟨id, ts, _, hts, hname⟩
  have h1 := congrArg List.length hname
  rw [conventionName_length, timestamp_length ts hts] at h1
  have h2 : "[2024-01-01-00-00-00].md".toList.length = 24 := by decide
  omega

/-- C3 (amended): `loadEntries` produces exactly one entry, with the same file
name, for each listed file whose name ends in `.md` and in which both the
bracketed group and the bracketed date-time group occur; every file named by the
convention is such a file. So a listing of N validly-named files and M other
files none of which is accepted yields exactly N entries, one per valid file. -/
theorem validEntries_filenames (files : FileStore) :
    ((validEntries files).map (fun e => e.filename)).Perm
      ((files.map (fun f => f.1)).filter accepted) ∧
    (validEntries files).length = ((files.map (fun f => f.1)).filter accepted).length ∧
    (∀ name, FollowsConvention name → accepted name = true) ∧
    (∀ valid invalid : List JSString, (files.map (fun f => f.1)).Perm (valid ++ invalid) →
      (∀ name ∈ valid, FollowsConvention name) → (∀ name ∈ invalid, accepted name = false) →
      ((validEntries files).map (fun e => e.filename)).Perm valid ∧
      (validEntries files).length = valid.length) := by
  have hperm : ((validEntries files).map (fun e => e.filename)).Perm
      ((files.map (fun f => f.1)).filter accepted) := by
    rw [← loadedEntries_filenames]
    exact (arraySort_perm compareEntries (loadedEntries files)).map _
  have hlen : (validEntries files).length =
      ((files.map (fun f => f.1)).filter accepted).length := by
    have h := hperm.length_eq
    rwa [List.length_map] at h
  refine ⟨hperm, hlen, accepted_of_followsConvention, ?_⟩
  intro valid invalid hvi hv hi
  have h1 : ((files.map (fun f => f.1)).filter accepted).Perm valid := by
    have h2 := hvi.filter accepted
    rw [List.filter_append] at h2
    have h3 : valid.filter accepted = valid :=
      List.filter_eq_self.mpr (fun a ha => accepted_of_followsConvention a (hv a ha))
    have h4 : invalid.filter accepted = [] :=
      List.filter_eq_nil_iff.mpr (fun a ha => by simp [hi a ha])
    rw [h3, h4, List.append_nil] at h2
    exact h2
  refine ⟨hperm.trans h1, ?_⟩
  rw [hlen]; exact h1.length_eq


/-! ## `loadEntries`: the bootstrap decision -/

/-- The decision of lines 223-249 in terms of the predicate `isEmptyEntryToday`:
an empty list gives a welcome entry; otherwise the first entry of the list that
passes the predicate is selected when there is one; otherwise the only entry is
selected when it is the welcome entry; otherwise a blank entry is created. The
decision never falls through without an action, and a selected entry is always
a member of the list. -/
theorem bootstrapAction_priority (today : DateTime) (entries : List HumanEntry) :
    (entries = [] → bootstrapAction today entries = .createWelcome) ∧
    (entries ≠ [] →
      (∃ e ∈ entries, isEmptyEntryToday (newDate today.year today.month today.day) e = true) →
      ∃ e ∈ entries, isEmptyEntryToday (newDate today.year today.month today.day) e = true ∧
        entries.find? (isEmptyEntryToday (newDate today.year today.month today.day)) = some e ∧
        bootstrapAction today entries = .select e) ∧
    (entries ≠ [] →
      (∀ e ∈ entries, isEmptyEntryToday (newDate today.year today.month today.day) e = false) →
      ∀ w, entries = [w] → includes w.previewText (utf16 welcomeMarker) = true →
        bootstrapAction today entries = .select w) ∧
    (entries ≠ [] →
      (∀ e ∈ entries, isEmptyEntryToday (newDate today.year today.month today.day) e = false) →
      (¬ ∃ w, entries = [w] ∧ includes w.previewText (utf16 welcomeMarker) = true) →
        bootstrapAction today entries = .createBlank) ∧
    bootstrapAction today entries ≠ .noAction ∧
    (∀ e, bootstrapAction today entries = .select e → e ∈ entries) := by
  generalize hts : newDate today.year today.month today.day = todayStart
  have hdef : bootstrapAction today entries =
      (if entries.length = 0 then BootAction.createWelcome
       else if (!entries.any (isEmptyEntryToday todayStart) && !hasOnlyWelcomeEntry entries) = true
         then BootAction.createBlank
       else
        match entries.find? (isEmptyEntryToday todayStart) with
        | some todayEntry => BootAction.select todayEntry
        | none =>
          if hasOnlyWelcomeEntry entries = true then
            match entries with
            | e :: _ => BootAction.select e
            | [] => BootAction.noAction
          else BootAction.noAction) := by
    simp only [bootstrapAction, hts]
  have hwel : ∀ w, hasOnlyWelcomeEntry [w] = includes w.previewText (utf16 welcomeMarker) :=
    fun w => rfl
  have hwel2 : hasOnlyWelcomeEntry entries = true →
      ∃ w, entries = [w] ∧ includes w.previewText (utf16 welcomeMarker) = true := by
    intro h
    match entries, h with
    | [w], h => exact ⟨w, rfl, h⟩
  cases hfind : entries.find? (isEmptyEntryToday todayStart) with
  | some e0 =>
    have hmem : e0 ∈ entries := List.mem_of_find?_eq_some hfind
    have hp : isEmptyEntryToday todayStart e0 = true := by
      simpa using List.find?_some hfind
    have hne : entries.length ≠ 0 := by
      intro h0
      rw [List.length_eq_zero] at h0
      rw [h0] at hmem
      simp at hmem
    have hany : entries.any (isEmptyEntryToday todayStart) = true :=
      List.any_eq_true.mpr ⟨e0, hmem, hp⟩
    have hact : bootstrapAction today entries = .select e0 := by
      rw [hdef, hfind]; simp [hne, hany]
    refine ⟨?_, ?_, ?_, ?_, ?_, ?_⟩
    · intro h; rw [h] at hmem; simp at hmem
    · intro _ _; exact ⟨e0, hmem, hp, rfl, hact⟩
    · intro _ hall; rw [hall e0 hmem] at hp; exact absurd hp (by simp)
    · intro _ hall; rw [hall e0 hmem] at hp; exact absurd hp (by simp)
    · rw [hact]; simp
    · intro e he; rw [hact] at he; cases he; exact hmem
  | none =>
    have hnone : ∀ e ∈ entries, isEmptyEntryToday todayStart e = false := by
      intro e he
      have := List.find?_eq_none.mp hfind e he
      simpa using this
    have hany : entries.any (isEmptyEntryToday todayStart) = false := by
      rw [List.any_eq_false]
      intro e he
      simp [hnone e he]
    refine ⟨?_, ?_, ?_, ?_, ?_, ?_⟩
    · intro h; rw [hdef, h]; rfl
    · rintro _ ⟨e, he, hp⟩; rw [hnone e he] at hp; exact absurd hp (by simp)
    · intro _ _ w hw hinc
      subst hw
      rw [hdef, hfind]
      simp [hany, hwel, hinc]
    · intro hne _ hnw
      have hlen : entries.length ≠ 0 := fun h0 => hne (List.length_eq_zero.mp h0)
      have hw : hasOnlyWelcomeEntry entries = false := by
        cases h : hasOnlyWelcomeEntry entries with
        | false => rfl
        | true => exact absurd (hwel2 h) hnw
      rw [hdef]; simp [hlen, hany, hw]
    · rw [hdef, hfind]
      by_cases hlen : entries.length = 0
      · simp [hlen]
      · cases hw : hasOnlyWelcomeEntry entries with
        | false => simp [hlen, hany, hw]
        | true =>
          obtain ⟨w, rfl, _⟩ := hwel2 hw
          simp [hany, hw]
    · intro e he
      rw [hdef, hfind] at he
      by_cases hlen : entries.length = 0
      · simp [hlen] at he
      · cases hw : hasOnlyWelcomeEntry entries with
        | false => simp [hlen, hany, hw] at he
        | true =>
          obtain ⟨w, rfl, _⟩ := hwel2 hw
          simp [hany, hw] at he
          simp [he]


/-! ## Selecting and deleting entries -/

theorem readFile_writeFile_same (files : FileStore) (name content : JSString) :
    readFile (writeFile files name content) name = some content := by
  unfold writeFile
  split_ifs with hany
  · induction files with
    | nil => simp at hany
    | cons f fs ih =>
      by_cases hf : f.1 = name
      · simp [readFile, hf]
      · have hany2 : fs.any (fun f => decide (f.1 = name)) = true := by
          simpa [hf] using hany
        have := ih hany2
        simp only [readFile, List.map_cons, hf, if_false] at this ⊢
        rw [List.find?_cons_of_neg _ (by simpa using hf)]
        exact this
  · have hnone : files.find? (fun f => decide (f.1 = name)) = none := by
      rw [List.find?_eq_none]
      intro f hf
      have h2 : ¬ (files.any (fun f => decide (f.1 = name)) = true) := hany
      rw [List.any_eq_true] at h2
      intro hfn
      exact h2 ⟨f, hf, hfn⟩
    simp [readFile, List.find?_append, hnone]

/-- C6 (counterexample): with entry `aa` active and the unsaved buffer
`new text`, selecting `bb` leaves the file of `aa` holding `old text`: nothing is
saved before the switch. -/
theorem selectEntry_does_not_save :
    editingState.selectedEntryId = some entryA.id ∧ entryB.id ≠ entryA.id ∧
    editingState.text = "new text".toList ∧
    readFile (selectEntry entryB editingState).files entryA.filename
      = some "old text".toList ∧
    readFile (selectEntry entryB editingState).files entryA.filename
      ≠ some editingState.text ∧
    (selectEntry entryB editingState).selectedEntryId = some entryB.id ∧
    (selectEntry entryB editingState).text = "bee".toList := by
  decide

/-- C6 (amended): selecting an entry from the sidebar writes no file and leaves
the entry list unchanged (the file of the previously active entry holds what was
last saved, whatever the buffer is); the active id becomes the id of the
target, and the buffer becomes the stored content of the target file, or stays
as it is when that file cannot be read. -/
theorem selectEntry_effect (item : HumanEntry) (s : AppState) :
    (selectEntry item s).files = s.files ∧
    (selectEntry item s).entries = s.entries ∧
    (selectEntry item s).selectedEntryId = some item.id ∧
    (selectEntry item s).text = (readFile s.files item.filename).getD s.text := by
  unfold selectEntry loadEntry
  cases h : readFile s.files item.filename <;> simp [h]

theorem length_ge_two_of_mem_ne {α : Type} (l : List α) (a b : α) (ha : a ∈ l) (hb : b ∈ l)
    (hab : a ≠ b) : 1 < l.length := by
  match l, ha, hb with
  | [x], ha, hb =>
    simp only [List.mem_singleton] at ha hb
    exact absurd (ha.trans hb.symm) hab
  | _ :: _ :: _, _, _ => simp

/-- C7 (counterexample): the only entry `aa` is active and is deleted; the file
removal succeeds and the write of the new blank file throws. The resulting list
is empty, not one new blank entry, and the active id and the buffer are still
those of the deleted entry. -/
theorem deleteEntry_write_failure_leaves_no_entry :
    singleState.selectedEntryId = some "aa".toList ∧
    singleState.entries = [entryA] ∧ entryA.id = "aa".toList ∧
    deleteFile true singleState.files entryA.filename = some [] ∧
    (deleteEntry true false "cc".toList sampleNow "aa".toList singleState).entries = [] ∧
    (deleteEntry true false "cc".toList sampleNow "aa".toList singleState).selectedEntryId
      = some "aa".toList ∧
    (deleteEntry true false "cc".toList sampleNow "aa".toList singleState).text
      = "old text".toList ∧
    (deleteEntry true false "cc".toList sampleNow "aa".toList singleState).files = [] := by
  decide

/-- C7 (amended): deleting the active entry when the file removal succeeds. The
entries with the deleted id leave the list. If another entry remains, the first
entry of the list with a different id becomes active, it is in the resulting
list and the buffer takes the stored content of its file (it stays as it is when
that file cannot be read). If no other entry remains and the write of the new
file completes, the resulting list is exactly one new blank entry (file content
two line feeds, empty preview), and it is active. If no other entry remains and
that write throws, the resulting list is empty, and the active id and the buffer
stay those of the deleted entry. -/
theorem deleteEntry_active (deleteOk writeOk : Bool) (newId : JSString) (now : DateTime)
    (entryId : JSString) (s : AppState) (d : HumanEntry) (files1 : FileStore)
    (hsel : s.selectedEntryId = some entryId)
    (hfind : s.entries.find? (fun entry => entry.id = entryId) = some d)
    (hdel : deleteFile deleteOk s.files d.filename = some files1) :
    (∀ n, s.entries.find? (fun entry => entry.id ≠ entryId) = some n →
      (deleteEntry deleteOk writeOk newId now entryId s).entries =
        s.entries.filter (fun entry => entry.id ≠ entryId) ∧
      (deleteEntry deleteOk writeOk newId now entryId s).selectedEntryId = some n.id ∧
      n ∈ (deleteEntry deleteOk writeOk newId now entryId s).entries ∧
      n.id ≠ entryId ∧
      (deleteEntry deleteOk writeOk newId now entryId s).files = files1 ∧
      (∀ content, readFile files1 n.filename = some content →
        (deleteEntry deleteOk writeOk newId now entryId s).text = content)) ∧
    ((∀ e ∈ s.entries, e.id = entryId) → writeOk = true →
      (deleteEntry deleteOk writeOk newId now entryId s).entries =
        [newEntryOf newId now false] ∧
      (newEntryOf newId now false).previewText = [] ∧
      (newEntryOf newId now false).id = newId ∧
      (deleteEntry deleteOk writeOk newId now entryId s).selectedEntryId = some newId ∧
      (deleteEntry deleteOk writeOk newId now entryId s).text = ['\n', '\n'] ∧
      readFile (deleteEntry deleteOk writeOk newId now entryId s).files
        (newEntryOf newId now false).filename = some ['\n', '\n']) ∧
    (∀ n, s.entries.find? (fun entry => entry.id ≠ entryId) = some n →
      (deleteEntry deleteOk writeOk newId now entryId s).text =
        (readFile files1 n.filename).getD s.text) ∧
    ((∀ e ∈ s.entries, e.id = entryId) → writeOk = false →
      (deleteEntry deleteOk writeOk newId now entryId s).entries = [] ∧
      (deleteEntry deleteOk writeOk newId now entryId s).selectedEntryId = some entryId ∧
      (deleteEntry deleteOk writeOk newId now entryId s).text = s.text ∧
      (deleteEntry deleteOk writeOk newId now entryId s).files = files1) := by
  have hdmem : d ∈ s.entries := List.mem_of_find?_eq_some hfind
  have hdid : d.id = entryId := by simpa using List.find?_some hfind
  have hnone : (∀ e ∈ s.entries, e.id = entryId) →
      s.entries.find? (fun entry => decide (entry.id ≠ entryId)) = none := by
    intro hall
    rw [List.find?_eq_none]
    intro e he
    simp [hall e he]
  have hfil : (∀ e ∈ s.entries, e.id = entryId) →
      s.entries.filter (fun entry => decide (entry.id ≠ entryId)) = [] := by
    intro hall
    rw [List.filter_eq_nil_iff]
    intro e he
    simp [hall e he]
  refine ⟨?_, ?_, ?_, ?_⟩
  · intro n hn
    have hnmem : n ∈ s.entries := List.mem_of_find?_eq_some hn
    have hnid : n.id ≠ entryId := by simpa using List.find?_some hn
    have hlen : s.entries.length > 1 :=
      length_ge_two_of_mem_ne _ d n hdmem hnmem (fun h => hnid (h ▸ hdid))
    simp only [deleteEntry, hfind, hdel, hsel, hlen, if_true, hn, loadEntry]
    cases hr : readFile files1 n.filename with
    | none => simp [hnid]; exact hnmem
    | some c => simp [hnid]; exact hnmem
  · intro hall hw
    subst hw
    have hnew : (newEntryOf newId now false).filename = entryFilename newId now := rfl
    simp only [deleteEntry, hfind, hdel, hsel, if_true, hnone hall, createNewEntry, hfil hall,
      hnew, readFile_writeFile_same]
    split_ifs <;> simp [newEntryOf, initialContent, readFile_writeFile_same]
  · intro n hn
    have hnmem : n ∈ s.entries := List.mem_of_find?_eq_some hn
    have hnid : n.id ≠ entryId := by simpa using List.find?_some hn
    have hlen : s.entries.length > 1 :=
      length_ge_two_of_mem_ne _ d n hdmem hnmem (fun h => hnid (h ▸ hdid))
    simp only [deleteEntry, hfind, hdel, hsel, hlen, if_true, hn, loadEntry]
    cases hr : readFile files1 n.filename <;> simp
  · intro hall hw
    subst hw
    simp only [deleteEntry, hfind, hdel, hsel, if_true, hnone hall, createNewEntry, hfil hall]
    split_ifs <;> first | contradiction | simp

/-- C7 (witness): deleting the active entry `aa` of two entries activates `bb`
and loads its content; deleting the only entry leaves one new blank entry when
the write completes, and an empty list when the write throws. -/
theorem deleteEntry_active_witness :
    (deleteEntry true true "cc".toList sampleNow "aa".toList editingState).selectedEntryId
      = some "bb".toList ∧
    (deleteEntry true true "cc".toList sampleNow "aa".toList editingState).text
      = "bee".toList ∧
    (deleteEntry true true "cc".toList sampleNow "aa".toList singleState).entries
      = [newEntryOf "cc".toList sampleNow false] ∧
    (deleteEntry true false "cc".toList sampleNow "aa".toList singleState).entries = [] :=
  have h1 := deleteEntry_active true true "cc".toList sampleNow "aa".toList editingState
    entryA [("[bb]-[2024-01-04-10-00-00].md".toList, "bee".toList)]
    (by decide) (by decide) (by decide)
  have h2 := deleteEntry_active true true "cc".toList sampleNow "aa".toList singleState
    entryA [] (by decide) (by decide) (by decide)
  have h4 := deleteEntry_active true false "cc".toList sampleNow "aa".toList singleState
    entryA [] (by decide) (by decide) (by decide)
  have h3 := h1.1 entryB (by decide)
  ⟨h3.2.1, h3.2.2.2.2.2 "bee".toList (by decide), (h2.2.1 (by decide) rfl).1,
    (h4.2.2.2 (by decide) rfl).1⟩

/-- C8: a successful deletion of an entry that is in the list and is not the
active one only removes the entries with that id: the list becomes the original
list filtered (order and fields kept, nothing added), the active id and the
buffer are unchanged, and the only change to the files is the removal of the
deleted entry's file. -/
theorem deleteEntry_inactive (deleteOk writeOk : Bool) (newId : JSString) (now : DateTime)
    (entryId : JSString) (s : AppState) (d : HumanEntry) (files1 : FileStore)
    (hsel : s.selectedEntryId ≠ some entryId)
    (hfind : s.entries.find? (fun entry => entry.id = entryId) = some d)
    (hdel : deleteFile deleteOk s.files d.filename = some files1) :
    (deleteEntry deleteOk writeOk newId now entryId s).entries =
      s.entries.filter (fun entry => entry.id ≠ entryId) ∧
    (deleteEntry deleteOk writeOk newId now entryId s).entries.Sublist s.entries ∧
    (∀ e, e ∈ (deleteEntry deleteOk writeOk newId now entryId s).entries ↔
      e ∈ s.entries ∧ e.id ≠ entryId) ∧
    (deleteEntry deleteOk writeOk newId now entryId s).selectedEntryId = s.selectedEntryId ∧
    (deleteEntry deleteOk writeOk newId now entryId s).text = s.text ∧
    (deleteEntry deleteOk writeOk newId now entryId s).files = files1 ∧
    files1 = s.files.filter (fun f => f.1 ≠ d.filename) := by
  have hres : deleteEntry deleteOk writeOk newId now entryId s =
      { s with files := files1,
               entries := s.entries.filter (fun entry => entry.id ≠ entryId) } := by
    simp only [deleteEntry, hfind, hdel, hsel, if_false]
  have hfiles : files1 = s.files.filter (fun f => f.1 ≠ d.filename) := by
    unfold deleteFile at hdel
    split_ifs at hdel
    exact (Option.some.inj hdel).symm
  rw [hres]
  refine ⟨rfl, List.filter_sublist _, ?_, rfl, rfl, rfl, hfiles⟩
  intro e
  simp [List.mem_filter]

/-- C8 (witness): deleting the entry `bb`, which is not active, keeps `aa`
active with its buffer. -/
theorem deleteEntry_inactive_witness :
    (deleteEntry true true "cc".toList sampleNow "bb".toList editingState).entries
      = [entryA] ∧
    (deleteEntry true true "cc".toList sampleNow "bb".toList editingState).selectedEntryId
      = some "aa".toList ∧
    (deleteEntry true true "cc".toList sampleNow "bb".toList editingState).text
      = "new text".toList :=
  have h := deleteEntry_inactive true true "cc".toList sampleNow "bb".toList editingState
    entryB [("[aa]-[2024-01-05-09-00-00].md".toList, "old text".toList)]
    (by decide) (by decide) (by decide)
  ⟨h.1.trans (by decide), h.2.2.2.1.trans (by decide), h.2.2.2.2.1.trans (by decide)⟩


/-! ## Search filter -/

theorem includes_iff {α : Type} [DecidableEq α] (s q : List α) :
    includes s q = true ↔ q <:+: s := by
  induction s with
  | nil =>
    cases q <;> simp [includes]
  | cons c cs ih =>
    simp only [includes, Bool.or_eq_true, List.isPrefixOf_iff_prefix, ih]
    exact List.infix_cons_iff.symm

theorem trim_eq_nil_iff (q : JSString) :
    trim q = [] ↔ ∀ c ∈ q, isWhiteSpace c = true := by
  constructor
  · intro h
    have h1 : ∀ x ∈ trimStart q, isWhiteSpace x = true :=
      List.rdropWhile_eq_nil_iff.mp h
    have h2 : trimStart q = [] := by
      cases hq : trimStart q with
      | nil => rfl
      | cons x xs =>
        have hx := h1 x (by rw [hq]; exact List.mem_cons_self _ _)
        have hd := List.head?_dropWhile_not isWhiteSpace q
        have hq2 : q.dropWhile isWhiteSpace = x :: xs := hq
        rw [hq2] at hd
        simp only [List.head?_cons] at hd
        rw [hx] at hd
        exact absurd hd (by simp)
    exact List.dropWhile_eq_nil_iff.mp h2
  · intro h
    have h2 : trimStart q = [] := List.dropWhile_eq_nil_iff.mpr h
    show trimEnd (trimStart q) = []
    rw [h2]
    rfl

/-- C9: the search filter. An empty or whitespace-only query gives the whole
entry list. Any other query gives exactly the entries, in their original order,
whose display date or preview contains the query as a contiguous substring once
both sides are lower-cased; so the query `jan` keeps an entry dated `Jan 5`. -/
theorem filterEntries_spec (toLowerCase : CodeUnits → CodeUnits) (searchQuery : JSString)
    (entries : List HumanEntry) :
    ((∀ c ∈ searchQuery, isWhiteSpace c = true) →
      filterEntries toLowerCase searchQuery entries = entries) ∧
    ((∃ c ∈ searchQuery, isWhiteSpace c = false) →
      (filterEntries toLowerCase searchQuery entries).Sublist entries ∧
      (∀ e, e ∈ filterEntries toLowerCase searchQuery entries ↔
        e ∈ entries ∧ (toLowerCase (utf16 searchQuery) <:+: toLowerCase (utf16 e.date) ∨
          toLowerCase (utf16 searchQuery) <:+: toLowerCase e.previewText)) ∧
      (∀ P : HumanEntry → Bool,
        (∀ e, P e = true ↔ (toLowerCase (utf16 searchQuery) <:+: toLowerCase (utf16 e.date) ∨
          toLowerCase (utf16 searchQuery) <:+: toLowerCase e.previewText)) →
        filterEntries toLowerCase searchQuery entries = entries.filter P)) ∧
    filterEntries asciiLowerCase "jan".toList
      [{ id := "aa".toList, date := "Jan 5".toList,
         filename := "[aa]-[2024-01-05-09-00-00].md".toList, previewText := utf16 "Hello".toList },
       { id := "bb".toList, date := "Feb 5".toList,
         filename := "[bb]-[2024-02-05-09-00-00].md".toList, previewText := utf16 "World".toList }]
      = [{ id := "aa".toList, date := "Jan 5".toList,
           filename := "[aa]-[2024-01-05-09-00-00].md".toList,
           previewText := utf16 "Hello".toList }] := by
  refine ⟨?_, ?_, by decide⟩
  · intro h
    have ht := (trim_eq_nil_iff searchQuery).mpr h
    simp [filterEntries, ht]
  · rintro ⟨c, hc, hcw⟩
    have ht : trim searchQuery ≠ [] := by
      intro h0
      have := (trim_eq_nil_iff searchQuery).mp h0 c hc
      rw [hcw] at this
      exact absurd this (by simp)
    have hdef : filterEntries toLowerCase searchQuery entries =
        entries.filter (fun entry =>
          includes (toLowerCase (utf16 entry.date)) (toLowerCase (utf16 searchQuery)) ||
          includes (toLowerCase entry.previewText) (toLowerCase (utf16 searchQuery))) := by
      simp [filterEntries, ht]
    refine ⟨?_, ?_, ?_⟩
    · rw [hdef]; exact List.filter_sublist _
    · intro e
      rw [hdef, List.mem_filter, Bool.or_eq_true, includes_iff, includes_iff]
    · intro P hP
      rw [hdef]
      apply List.filter_congr
      intro e _
      have h1 := hP e
      rw [← includes_iff, ← includes_iff, ← Bool.or_eq_true] at h1
      exact (Bool.eq_iff_iff.mpr h1).symm


/-! ## Month sections -/

theorem pushGrouped_keys (key : JSString) (entry : HumanEntry)
    (grouped : List (JSString × List HumanEntry)) (x : JSString) :
    x ∈ (pushGrouped key entry grouped).map (fun g => g.1) ↔
      x ∈ grouped.map (fun g => g.1) ∨ x = key := by
  induction grouped with
  | nil => simp [pushGrouped]
  | cons g rest ih =>
    obtain ⟨k, es⟩ := g
    simp only [pushGrouped]
    split_ifs with hk
    · subst hk
      simp only [List.map_cons, List.mem_cons]
      tauto
    · simp only [List.map_cons, List.mem_cons, ih]
      tauto

theorem pushGrouped_groups (key : JSString) (entry : HumanEntry)
    (hkey : sectionTitle entry = some key) (done : List HumanEntry)
    (grouped : List (JSString × List HumanEntry))
    (hnd : (grouped.map (fun g => g.1)).Nodup)
    (hg : ∀ g ∈ grouped,
      g.2 = done.filter (fun e => decide (sectionTitle e = some g.1)) ∧ g.2 ≠ [])
    (hnew : key ∉ grouped.map (fun g => g.1) →
      done.filter (fun e => decide (sectionTitle e = some key)) = []) :
    ∀ g ∈ pushGrouped key entry grouped,
      g.2 = (done ++ [entry]).filter (fun e => decide (sectionTitle e = some g.1)) ∧
      g.2 ≠ [] := by
  induction grouped with
  | nil =>
    intro g hmem
    simp only [pushGrouped, List.mem_singleton] at hmem
    subst hmem
    have h0 := hnew (by simp)
    simp [List.filter_append, h0, hkey]
  | cons g0 rest ih =>
    obtain ⟨k, es⟩ := g0
    have hnd2 := List.nodup_cons.mp hnd
    have hhead := hg (k, es) (List.mem_cons_self _ _)
    simp only [pushGrouped]
    split_ifs with hk
    · subst hk
      intro g hmem
      rcases List.mem_cons.mp hmem with rfl | hmem
      · simp only at hhead ⊢
        rw [hhead.1]
        simp [List.filter_append, hkey]
      · have hne : g.1 ≠ k := by
          intro h0
          exact hnd2.1 (h0 ▸ List.mem_map_of_mem (fun g => g.1) hmem)
        have h1 := hg g (List.mem_cons_of_mem _ hmem)
        have hne2 : ¬ (some k = some g.1) := fun h => hne (Option.some.inj h).symm
        refine ⟨?_, h1.2⟩
        rw [List.filter_append, ← h1.1]
        simp [hkey, hne2]
    · intro g hmem
      rcases List.mem_cons.mp hmem with rfl | hmem
      · simp only at hhead ⊢
        have hne2 : ¬ (some key = some k) := fun h => hk (Option.some.inj h).symm
        refine ⟨?_, hhead.2⟩
        rw [List.filter_append, ← hhead.1]
        simp [hkey, hne2]
      · refine ih hnd2.2 (fun g hg2 => hg g (List.mem_cons_of_mem _ hg2)) ?_ g hmem
        intro hnot
        apply hnew
        simp only [List.map_cons, List.mem_cons, not_or]
        exact ⟨fun h => hk h.symm, hnot⟩

theorem pushGrouped_nodup (key : JSString) (entry : HumanEntry)
    (grouped : List (JSString × List HumanEntry))
    (hnd : (grouped.map (fun g => g.1)).Nodup) :
    ((pushGrouped key entry grouped).map (fun g => g.1)).Nodup := by
  induction grouped with
  | nil => simp [pushGrouped]
  | cons g0 rest ih =>
    obtain ⟨k, es⟩ := g0
    have hnd2 := List.nodup_cons.mp hnd
    simp only [pushGrouped]
    split_ifs with hk
    · exact hnd
    · simp only [List.map_cons, List.nodup_cons]
      refine ⟨?_, ih hnd2.2⟩
      intro hmem
      rcases (pushGrouped_keys key entry rest k).mp hmem with h | h
      · exact hnd2.1 h
      · exact hk h

theorem groupedInv_step (grouped : List (JSString × List HumanEntry))
    (done : List HumanEntry) (entry : HumanEntry) (h : GroupedInv grouped done) :
    GroupedInv
      (match sectionTitle entry with
       | some monthYear => pushGrouped monthYear entry grouped
       | none => grouped)
      (done ++ [entry]) := by
  obtain ⟨hnd, hg, hall⟩ := h
  cases hkey : sectionTitle entry with
  | none =>
    refine ⟨hnd, ?_, ?_⟩
    · intro g hmem
      have h1 := hg g hmem
      refine ⟨?_, h1.2⟩
      rw [List.filter_append, ← h1.1]
      simp [hkey]
    · intro e he t ht
      rcases List.mem_append.mp he with he | he
      · exact hall e he t ht
      · simp only [List.mem_singleton] at he
        subst he
        rw [hkey] at ht
        exact absurd ht (by simp)
  | some key =>
    refine ⟨pushGrouped_nodup key entry grouped hnd, ?_, ?_⟩
    · apply pushGrouped_groups key entry hkey done grouped hnd hg
      intro hnot
      rw [List.filter_eq_nil_iff]
      intro e he
      simp only [decide_eq_true_eq]
      intro ht
      exact hnot (hall e he key ht)
    · intro e he t ht
      rw [pushGrouped_keys]
      rcases List.mem_append.mp he with he | he
      · exact Or.inl (hall e he t ht)
      · simp only [List.mem_singleton] at he
        subst he
        rw [hkey] at ht
        exact Or.inr (Option.some.inj ht).symm

theorem groupedInv_foldl (es : List HumanEntry)
    (grouped : List (JSString × List HumanEntry)) (done : List HumanEntry)
    (h : GroupedInv grouped done) :
    GroupedInv
      (es.foldl
        (fun grouped entry =>
          match sectionTitle entry with
          | some monthYear => pushGrouped monthYear entry grouped
          | none => grouped)
        grouped)
      (done ++ es) := by
  induction es generalizing grouped done with
  | nil => simpa using h
  | cons e rest ih =>
    have h1 := ih _ _ (groupedInv_step grouped done e h)
    simpa [List.foldl_cons, List.append_assoc] using h1

theorem groupedInv_groupEntries (es : List HumanEntry) :
    GroupedInv (groupEntries es) es := by
  have h := groupedInv_foldl es [] [] ⟨by simp, by simp, by simp⟩
  simpa [groupEntries] using h


/-! ## Dates -/

theorem yearOfEra_roundtrip (yoe doy doe : Int) (h0 : 0 ≤ yoe) (h1 : yoe ≤ 399)
    (hd0 : 0 ≤ doy) (hd : doy ≤ 337) (hdoe : doe = yoe * 365 + yoe / 4 - yoe / 100 + doy) :
    (doe - doe / 1460 + doe / 36524 - doe / 146096) / 365 = yoe := by
  have hi : doe / 146096 = 0 := by omega
  have hc : yoe / 100 = 0 ∨ yoe / 100 = 1 ∨ yoe / 100 = 2 ∨ yoe / 100 = 3 := by omega
  have hg : doe / 36524 = yoe / 100 := by omega
  rw [hi, hg]
  rcases hc with hc | hc | hc | hc <;> rw [hc] at hdoe ⊢ <;> omega

/-- The civil date of the day number of the first of a month is that date. -/
theorem civilFromDays_daysFromCivil (y m : Int) (hm1 : 1 ≤ m) (hm12 : m ≤ 12) :
    civilFromDays (daysFromCivil y m 1) = (y, m, 1) := by
  dsimp only [civilFromDays, daysFromCivil]
  generalize hy1 : (if m ≤ 2 then y - 1 else y) = y1
  generalize hmp : (if m > 2 then m - 3 else m + 9) = mp
  have hmp0 : 0 ≤ mp ∧ mp ≤ 11 := by split_ifs at hmp <;> omega
  generalize hera : y1 / 400 = era
  generalize hyoe : y1 - era * 400 = yoe
  have hyoe0 : 0 ≤ yoe ∧ yoe ≤ 399 := by omega
  generalize hdoy : (153 * mp + 2) / 5 + 1 - 1 = doy
  have hdoyb : 0 ≤ doy ∧ doy ≤ 337 := by omega
  generalize hdoe : yoe * 365 + yoe / 4 - yoe / 100 + doy = doe
  have hdoeb : 0 ≤ doe ∧ doe < 146097 := by omega
  have hz : (era * 146097 + doe - 719468 + 719468) / 146097 = era := by omega
  simp only [hz]
  have hdoe2 : era * 146097 + doe - 719468 + 719468 - era * 146097 = doe := by omega
  simp only [hdoe2]
  have hy := yearOfEra_roundtrip yoe doy doe hyoe0.1 hyoe0.2 hdoyb.1 hdoyb.2 hdoe.symm
  simp only [hy]
  have hdoy2 : doe - (365 * yoe + yoe / 4 - yoe / 100) = doy := by omega
  simp only [hdoy2]
  have hmp2 : (5 * doy + 2) / 153 = mp := by omega
  simp only [hmp2]
  have hd : doy - (153 * mp + 2) / 5 + 1 = 1 := by omega
  simp only [hd]
  have hm : (if mp < 10 then mp + 3 else mp - 9) = m := by
    split_ifs at hmp ⊢ <;> omega
  simp only [hm]
  have hyy : (if m ≤ 2 then yoe + era * 400 + 1 else yoe + era * 400) = y := by
    split_ifs at hy1 ⊢ <;> omega
  simp only [hyy]

theorem monthYearOf_newDate (year month : Nat) (hy : 100 ≤ year) (hm1 : 1 ≤ month)
    (hm12 : month ≤ 12) :
    monthYearOf (newDate year ((month : Int) - 1) 1) =
      monthLong.getD (month - 1) [] ++ ' ' :: (Nat.repr year).toList := by
  have hc : civilFromDays (newDate year ((month : Int) - 1) 1) = ((year : Int), (month : Int), 1) := by
    unfold newDate
    have h0 : ¬ (0 ≤ (year : Int) ∧ (year : Int) ≤ 99) := by omega
    have h1 : ((month : Int) - 1) / 12 = 0 := by omega
    have h2 : ((month : Int) - 1) % 12 + 1 = month := by omega
    simp only [h0, if_false, h1, h2, add_zero]
    exact civilFromDays_daysFromCivil _ _ (by omega) (by omega)
  have hmon : (getMonth (newDate year ((month : Int) - 1) 1)).toNat = month - 1 := by
    simp only [getMonth, hc]; omega
  have hyr : (getFullYear (newDate year ((month : Int) - 1) 1)).toNat = year := by
    simp only [getFullYear, hc]; omega
  simp only [monthYearOf, decimal, hmon, hyr]

theorem sectionTitle_convention (id ts : JSString) (e : HumanEntry)
    (he : e.filename = conventionName id ts)
    (hclean : search yearMonthPattern ('[' :: id) = none) (hts : isTimestamp ts = true)
    (hy : 100 ≤ parseInt (ts.take 4)) (hm1 : 1 ≤ parseInt ((ts.drop 5).take 2))
    (hm12 : parseInt ((ts.drop 5).take 2) ≤ 12) :
    sectionTitle e = some (monthLong.getD (parseInt ((ts.drop 5).take 2) - 1) [] ++
      ' ' :: (Nat.repr (parseInt (ts.take 4))).toList) := by
  have hmatch := matchYearMonth_convention id ts hclean hts
  have hl := timestamp_length ts hts
  have hm : matchHere timestampPattern ts = some ts := by simpa [isTimestamp] using hts
  have hpat : timestampPattern = (d4 ++ .lit '-' :: d2) ++
      (.lit '-' :: d2 ++ .lit '-' :: d2 ++ .lit '-' :: d2 ++ .lit '-' :: d2) := by decide
  rw [hpat] at hm
  have h7 := matchHere_pattern_left _ _ _ _ hm
  have hne : ∀ c : Char, (decide (48 ≤ c.toNat) && decide (c.toNat ≤ 57)) = true → c ≠ '-' := by
    intro c hc h0
    subst h0
    revert hc
    decide
  match ts, hl, h7, hmatch, he, hy, hm1, hm12 with
  | [c0, c1, c2, c3, c4, c5, c6, c7, c8, c9, c10, c11, c12, c13, c14, c15, c16, c17, c18],
      _, h7, hmatch, he, hy, hm1, hm12 =>
    simp only [d4, d2, List.cons_append, List.nil_append, matchHere, Atom.test] at h7
    split_ifs at h7 with h0 h1 h2 h3 h4 h5 h6
    all_goals try (simp at h7; done)
    simp only [decide_eq_true_eq] at h4
    subst h4
    simp only [List.take, List.drop] at hy hm1 hm12 hmatch ⊢
    have hs : splitDash [c0, c1, c2, c3, '-', c5, c6] = [[c0, c1, c2, c3], [c5, c6]] := by
      simp [splitDash, hne c0 h0, hne c1 h1, hne c2 h2, hne c3 h3, hne c5 h5, hne c6 h6]
    simp only [sectionTitle, he, hmatch, hs, List.getD_cons_zero, List.getD_cons_succ]
    rw [monthYearOf_newDate _ _ hy hm1 hm12]


theorem sectionTitle_isSome_of_followsConvention (e : HumanEntry)
    (h : FollowsConvention e.filename) : (sectionTitle e).isSome = true := by
  obtain ⟨id, ts, _, hts, hname⟩ := h
  have hm := matchHere_dateTime ts ['.', 'm', 'd'] hts
  have hdt : dateTimePattern = yearMonthPattern ++
      (.lit '-' :: d2 ++ .lit '-' :: d2 ++ .lit '-' :: d2 ++ .lit '-' :: d2 ++ [.lit ']']) := by
    decide
  rw [hdt] at hm
  have h1 := matchHere_pattern_left _ _ _ _ hm
  have h2 := search_isSome_of_matchHere yearMonthPattern ('[' :: id ++ [']', '-']) _ _ h1
  have hn : conventionName id ts =
      ('[' :: id ++ [']', '-']) ++ '[' :: (ts ++ ']' :: ['.', 'm', 'd']) := by
    simp [conventionName]
  rw [← hn, ← hname] at h2
  unfold sectionTitle matchYearMonth
  cases hs : search yearMonthPattern e.filename with
  | none => rw [hs] at h2; exact absurd h2 (by simp)
  | some m => rfl

/-- C10 (counterexample): an entry whose file follows the convention with the id
`2000-01x` and the timestamp 2024-05-06 is put in the section `January 2000`,
not `May 2024`; and an entry whose timestamp has the year `0050` is put in the
section `March 1950`. -/
theorem getSectionedEntries_title_not_createdAt :
    FollowsConvention entryDateLikeId.filename ∧
    matchDateTime entryDateLikeId.filename = some "2024-05-06-07-08-09".toList ∧
    getSectionedEntries [entryDateLikeId] =
      [{ title := "January 2000".toList, data := [entryDateLikeId] }] ∧
    FollowsConvention entryYear50.filename ∧
    matchDateTime entryYear50.filename = some "0050-03-01-00-00-00".toList ∧
    getSectionedEntries [entryYear50] =
      [{ title := "March 1950".toList, data := [entryYear50] }] := by
  refine ⟨⟨"2000-01x".toList, "2024-05-06-07-08-09".toList, by decide, by decide, by decide⟩,
    by decide, by decide,
    ⟨"aa".toList, "0050-03-01-00-00-00".toList, by decide, by decide, by decide⟩,
    by decide, by decide⟩

/-- C10 (amended): `getSectionedEntries` partitions the entries whose file name
holds a `[YYYY-MM` group (every file of the convention does) by the title computed
from the first such group: no two sections share a title, no section is empty,
each section holds exactly the entries with its title in their original order,
and every such entry is in the section of its title. The title is the
`<Month name> <year>` of the embedded timestamp when `[id` holds no `[YYYY-MM`
group, the month is 01..12 and the year is at least 0100. -/
theorem getSectionedEntries_partition (filteredEntries : List HumanEntry) :
    ((getSectionedEntries filteredEntries).map (fun s => s.title)).Nodup ∧
    (∀ s ∈ getSectionedEntries filteredEntries,
      s.data = filteredEntries.filter (fun e => decide (sectionTitle e = some s.title)) ∧
      s.data ≠ []) ∧
    (∀ e ∈ filteredEntries, ∀ t, sectionTitle e = some t →
      ∃ s ∈ getSectionedEntries filteredEntries, s.title = t ∧ e ∈ s.data ∧
        ∀ s2 ∈ getSectionedEntries filteredEntries, e ∈ s2.data → s2.title = t) ∧
    (∀ e, FollowsConvention e.filename → (sectionTitle e).isSome = true) ∧
    (∀ e id ts, e.filename = conventionName id ts →
      search yearMonthPattern ('[' :: id) = none → isTimestamp ts = true →
      100 ≤ parseInt (ts.take 4) → 1 ≤ parseInt ((ts.drop 5).take 2) →
      parseInt ((ts.drop 5).take 2) ≤ 12 →
      sectionTitle e = some (monthLong.getD (parseInt ((ts.drop 5).take 2) - 1) [] ++
        ' ' :: (Nat.repr (parseInt (ts.take 4))).toList)) := by
  obtain ⟨hnd, hg, hall⟩ := groupedInv_groupEntries filteredEntries
  have hdata : ∀ s ∈ getSectionedEntries filteredEntries,
      s.data = filteredEntries.filter (fun e => decide (sectionTitle e = some s.title)) ∧
      s.data ≠ [] := by
    intro s hs
    simp only [getSectionedEntries, List.mem_map] at hs
    obtain ⟨g, hgm, rfl⟩ := hs
    exact hg g hgm
  refine ⟨?_, hdata, ?_, sectionTitle_isSome_of_followsConvention, ?_⟩
  · have : (getSectionedEntries filteredEntries).map (fun s => s.title) =
        (groupEntries filteredEntries).map (fun g => g.1) := by
      simp [getSectionedEntries, List.map_map, Function.comp_def]
    rw [this]; exact hnd
  · intro e he t ht
    have hk := hall e he t ht
    rw [List.mem_map] at hk
    obtain ⟨g, hgm, hg1⟩ := hk
    refine ⟨{ title := g.1, data := g.2 }, ?_, hg1, ?_, ?_⟩
    · simp only [getSectionedEntries, List.mem_map]
      exact ⟨g, hgm, rfl⟩
    · show e ∈ g.2
      rw [(hg g hgm).1, List.mem_filter]
      exact ⟨he, by simp [ht, hg1]⟩
    · intro s2 hs2 hmem
      rw [(hdata s2 hs2).1, List.mem_filter] at hmem
      have h2 := hmem.2
      simp only [decide_eq_true_eq] at h2
      rw [ht] at h2
      exact (Option.some.inj h2).symm
  · intro e id ts he hclean hts hy hm1 hm12
    exact sectionTitle_convention id ts e he hclean hts hy hm1 hm12


/-! ## `loadEntries`: the bootstrap on the listed entries -/

theorem yearOfEra_roundtrip_gen (yoe doy doe : Int) (h0 : 0 ≤ yoe) (h1 : yoe ≤ 399)
    (hd0 : 0 ≤ doy)
    (hd : doy ≤ 364 ∨ (doy = 365 ∧ (yoe + 1) % 4 = 0 ∧ ((yoe + 1) % 100 ≠ 0 ∨ yoe = 399)))
    (hdoe : doe = yoe * 365 + yoe / 4 - yoe / 100 + doy) :
    (doe - doe / 1460 + doe / 36524 - doe / 146096) / 365 = yoe := by
  by_cases hspecial : yoe = 399 ∧ doy = 365
  · obtain ⟨hy, hdd⟩ := hspecial
    subst hy; subst hdd
    subst hdoe
    decide
  · have hd2 : doy ≤ 364 ∨ (doy = 365 ∧ yoe % 4 = 3 ∧ yoe ≠ 99 ∧ yoe ≠ 199 ∧ yoe ≠ 299 ∧
        yoe ≠ 399) := by
      rcases hd with hd | ⟨ha, hb, hc⟩
      · exact Or.inl hd
      · refine Or.inr ⟨ha, by omega, ?_, ?_, ?_, ?_⟩ <;> omega
    clear hd
    have hi : doe / 146096 = 0 := by omega
    have hc : yoe / 100 = 0 ∨ yoe / 100 = 1 ∨ yoe / 100 = 2 ∨ yoe / 100 = 3 := by omega
    have hg : doe / 36524 = yoe / 100 := by
      rcases hc with hc | hc | hc | hc <;> rw [hc] at hdoe ⊢ <;> omega
    rw [hi, hg]
    rcases hc with hc | hc | hc | hc <;> rw [hc] at hdoe ⊢ <;> omega

theorem daysInMonth_bounds (y m d : Nat) (hd : d ≤ daysInMonth y m) :
    d ≤ 31 ∧ ((m = 4 ∨ m = 6 ∨ m = 9 ∨ m = 11) → d ≤ 30) ∧
    (m = 2 → d ≤ 29 ∧ (d = 29 → (y % 4 = 0 ∧ (y % 100 ≠ 0 ∨ y % 400 = 0)))) := by
  unfold daysInMonth at hd
  split_ifs at hd with h2 hleap h30
  · simp only [isLeapYear, Bool.or_eq_true, Bool.and_eq_true, decide_eq_true_eq,
      decide_not, Bool.not_eq_true', decide_eq_false_iff_not] at hleap
    refine ⟨by omega, by omega, fun _ => ⟨hd, fun _ => ?_⟩⟩
    omega
  · refine ⟨by omega, by omega, fun _ => ⟨by omega, fun h => ?_⟩⟩
    omega
  · exact ⟨by omega, fun _ => hd, fun h => absurd h h2⟩
  · refine ⟨hd, fun h => absurd h h30, fun h => absurd h h2⟩

/-- The civil date of the day number of a calendar date is that date. -/
theorem civilFromDays_daysFromCivil_date (y m d : Nat) (hm1 : 1 ≤ m) (hm12 : m ≤ 12)
    (hd1 : 1 ≤ d) (hd : d ≤ daysInMonth y m) :
    civilFromDays (daysFromCivil y m d) = ((y : Int), (m : Int), (d : Int)) := by
  obtain ⟨hb31, hb30, hb2⟩ := daysInMonth_bounds y m d hd
  dsimp only [civilFromDays, daysFromCivil]
  generalize hy1 : (if (m : Int) ≤ 2 then (y : Int) - 1 else (y : Int)) = y1
  generalize hmp : (if (m : Int) > 2 then (m : Int) - 3 else (m : Int) + 9) = mp
  have hmp0 : 0 ≤ mp ∧ mp ≤ 11 := by split_ifs at hmp <;> omega
  generalize hera : y1 / 400 = era
  generalize hyoe : y1 - era * 400 = yoe
  have hyoe0 : 0 ≤ yoe ∧ yoe ≤ 399 := by omega
  generalize hdoy : (153 * mp + 2) / 5 + (d : Int) - 1 = doy
  have hmcases : m = 1 ∨ m = 2 ∨ m = 3 ∨ m = 4 ∨ m = 5 ∨ m = 6 ∨ m = 7 ∨ m = 8 ∨ m = 9 ∨
      m = 10 ∨ m = 11 ∨ m = 12 := by omega
  have hdoyb : 0 ≤ doy ∧
      (doy ≤ 364 ∨ (doy = 365 ∧ (yoe + 1) % 4 = 0 ∧ ((yoe + 1) % 100 ≠ 0 ∨ yoe = 399))) := by
    rcases hmcases with h | h | h | h | h | h | h | h | h | h | h | h <;> subst h <;>
      simp at hmp hy1 hb30 hb2 <;> subst hmp <;> constructor <;> omega
  generalize hdoe : yoe * 365 + yoe / 4 - yoe / 100 + doy = doe
  have hdoeb : 0 ≤ doe ∧ doe < 146097 := by
    rcases hdoyb.2 with h | h <;> omega
  have hz : (era * 146097 + doe - 719468 + 719468) / 146097 = era := by omega
  simp only [hz]
  have hdoe2 : era * 146097 + doe - 719468 + 719468 - era * 146097 = doe := by omega
  simp only [hdoe2]
  have hy := yearOfEra_roundtrip_gen yoe doy doe hyoe0.1 hyoe0.2 hdoyb.1 hdoyb.2 hdoe.symm
  simp only [hy]
  have hdoy2 : doe - (365 * yoe + yoe / 4 - yoe / 100) = doy := by omega
  simp only [hdoy2]
  have hmp2 : (5 * doy + 2) / 153 = mp := by
    rcases hmcases with h | h | h | h | h | h | h | h | h | h | h | h <;> subst h <;>
      simp at hmp hb30 hb2 <;> subst hmp <;> omega
  simp only [hmp2]
  have hdd : doy - (153 * mp + 2) / 5 + 1 = d := by omega
  simp only [hdd]
  have hm : (if mp < 10 then mp + 3 else mp - 9) = m := by
    split_ifs at hmp ⊢ <;> omega
  simp only [hm]
  have hyy : (if (m : Int) ≤ 2 then yoe + era * 400 + 1 else yoe + era * 400) = y := by
    split_ifs at hy1 ⊢ <;> omega
  simp only [hyy]

theorem newDate_calendar (y m d : Nat) (h : IsCalendarDate y m d) :
    civilFromDays (newDate y ((m : Int) - 1) d) = ((y : Int), (m : Int), (d : Int)) := by
  obtain ⟨hy, hm1, hm12, hd1, hd⟩ := h
  unfold newDate
  have h0 : ¬ (0 ≤ (y : Int) ∧ (y : Int) ≤ 99) := by omega
  have h1 : ((m : Int) - 1) / 12 = 0 := by omega
  have h2 : ((m : Int) - 1) % 12 + 1 = m := by omega
  simp only [h0, if_false, h1, h2, add_zero]
  exact civilFromDays_daysFromCivil_date y m d hm1 hm12 hd1 hd

/-- The start of the day of a calendar date is the date itself: the round trip
of lines 211 and 236 through `getFullYear`, `getMonth` and `getDate`. -/
theorem newDate_dayStart (y m d : Nat) (h : IsCalendarDate y m d) :
    newDate (getFullYear (newDate y ((m : Int) - 1) d))
      (getMonth (newDate y ((m : Int) - 1) d)) (getDate (newDate y ((m : Int) - 1) d))
      = newDate y ((m : Int) - 1) d := by
  simp only [getFullYear, getMonth, getDate, newDate_calendar y m d h]

theorem newDate_eq_iff (y m d y2 m2 d2 : Nat) (h : IsCalendarDate y m d)
    (h2 : IsCalendarDate y2 m2 d2) :
    newDate y ((m : Int) - 1) d = newDate y2 ((m2 : Int) - 1) d2 ↔
      y = y2 ∧ m = m2 ∧ d = d2 := by
  constructor
  · intro heq
    have hc := congrArg civilFromDays heq
    rw [newDate_calendar y m d h, newDate_calendar y2 m2 d2 h2] at hc
    simp only [Prod.mk.injEq] at hc
    omega
  · rintro ⟨rfl, rfl, rfl⟩
    rfl

theorem matchHere_forall₂ (p : List Atom) (s m : JSString) (h : matchHere p s = some m) :
    List.Forall₂ (fun a c => a.test c = true) p m := by
  induction p generalizing s m with
  | nil => simp [matchHere] at h; subst h; exact List.Forall₂.nil
  | cons a as ih =>
    cases s with
    | nil => simp [matchHere] at h
    | cons c cs =>
      simp only [matchHere] at h
      split_ifs at h with hc
      cases hm : matchHere as cs with
      | none => simp [hm] at h
      | some m1 =>
        simp [hm] at h; subst h
        exact List.Forall₂.cons hc (ih cs m1 hm)

theorem search_dateTime_clean (id ts : JSString)
    (hclean : search yearMonthDayPattern ('[' :: id) = none) (hts : isTimestamp ts = true) :
    search dateTimePattern (conventionName id ts) = some ('[' :: (ts ++ [']'])) := by
  have hdt : dateTimePattern = .lit '[' :: (timestampPattern ++ [.lit ']']) := by decide
  rw [conventionName_eq, hdt, search_convention]
  · rw [← hdt, search, matchHere_dateTime ts _ hts]
  · intro t htne ht
    cases hm : matchHere (.lit '[' :: (timestampPattern ++ [.lit ']']))
        (t ++ ']' :: '-' :: ('[' :: (ts ++ ']' :: ['.', 'm', 'd']))) with
    | none => rfl
    | some m =>
      exfalso
      have hsplit : Atom.lit '[' :: (timestampPattern ++ [.lit ']']) = yearMonthDayPattern ++
          (.lit '-' :: d2 ++ .lit '-' :: d2 ++ .lit '-' :: d2 ++ [.lit ']']) := by decide
      rw [hsplit] at hm
      have h1 := matchHere_pattern_left _ _ _ _ hm
      have hrej : ∀ a ∈ yearMonthDayPattern, a.test ']' = false := by decide
      have h2 := matchHere_before_close _ hrej t _ _ h1
      have h3 := (search_eq_none_iff yearMonthDayPattern (by decide) ('[' :: id)).mp hclean t ht
      rw [h2] at h3
      exact absurd h3 (by simp)

theorem timestampOf_convention (id ts : JSString) (e : HumanEntry)
    (he : e.filename = conventionName id ts)
    (hclean : search yearMonthDayPattern ('[' :: id) = none) (hts : isTimestamp ts = true) :
    timestampOf e = ts := by
  simp [timestampOf, matchDateTime, he, search_dateTime_clean id ts hclean hts]

/-- For an entry whose file follows the naming convention, with an id that holds
no `[YYYY-MM-DD`, and whose timestamp is a date of the calendar, the predicate of
`some` and `find` says that the preview is empty and the timestamp has the date
of today. -/
theorem isEmptyEntryToday_convention (today : DateTime) (e : HumanEntry) (id ts : JSString)
    (he : e.filename = conventionName id ts)
    (hclean : search yearMonthDayPattern ('[' :: id) = none) (hts : isTimestamp ts = true)
    (hdate : IsCalendarDate (yearOf ts) (monthOf ts) (dayOf ts))
    (htoday : IsCalendarDate today.year (today.month + 1) today.day) :
    isEmptyEntryToday (newDate today.year today.month today.day) e =
      (createdOn today e && decide (e.previewText = [])) := by
  have hmatch := matchYearMonthDay_convention id ts hclean hts
  have htsof := timestampOf_convention id ts e he hclean hts
  have hl := timestamp_length ts hts
  have hm : matchHere timestampPattern ts = some ts := by simpa [isTimestamp] using hts
  have hpat : timestampPattern = (d4 ++ .lit '-' :: d2 ++ .lit '-' :: d2) ++
      (.lit '-' :: d2 ++ .lit '-' :: d2 ++ .lit '-' :: d2) := by decide
  rw [hpat] at hm
  have h10 := matchHere_pattern_left _ _ _ _ hm
  have hne : ∀ c : Char, (decide (48 ≤ c.toNat) && decide (c.toNat ≤ 57)) = true → c ≠ '-' := by
    intro c hc h0
    subst h0
    revert hc
    decide
  have htoday2 : newDate today.year today.month today.day =
      newDate today.year (((today.month + 1 : Nat) : Int) - 1) today.day := by
    congr 1
    push_cast
    omega
  rw [htoday2]
  unfold createdOn
  rw [htsof]
  match ts, hl, h10, hmatch, hdate with
  | [c0, c1, c2, c3, c4, c5, c6, c7, c8, c9, c10, c11, c12, c13, c14, c15, c16, c17, c18],
      _, h10, hmatch, hdate =>
    have hf := matchHere_forall₂ _ _ _ h10
    simp only [d4, d2, List.cons_append, List.nil_append, List.length_cons, List.length_nil,
      List.take, List.forall₂_cons, Atom.test, decide_eq_true_eq] at hf
    obtain ⟨h0, h1, h2, h3, h4, h5, h6, h7, h8, h9, _⟩ := hf
    subst h4
    subst h7
    simp only [yearOf, monthOf, dayOf, List.take, List.drop] at hdate hmatch ⊢
    have hs : splitDash [c0, c1, c2, c3, '-', c5, c6, '-', c8, c9] =
        [[c0, c1, c2, c3], [c5, c6], [c8, c9]] := by
      simp [splitDash, hne c0 h0, hne c1 h1, hne c2 h2, hne c3 h3, hne c5 h5, hne c6 h6,
        hne c8 h8, hne c9 h9]
    simp only [isEmptyEntryToday, he, hmatch, hs, List.map_cons, List.map_nil,
      List.getD_cons_zero, List.getD_cons_succ]
    rw [newDate_dayStart _ _ _ hdate]
    have hiff := newDate_eq_iff _ _ _ _ _ _ hdate htoday
    by_cases hq : newDate (parseInt [c0, c1, c2, c3]) ((parseInt [c5, c6] : Int) - 1)
        (parseInt [c8, c9]) = newDate today.year (((today.month + 1 : Nat) : Int) - 1) today.day
    · have h3 := hiff.mp hq
      simp [hq, h3.1, h3.2.1, h3.2.2]
    · have h3 : ¬ (parseInt [c0, c1, c2, c3] = today.year ∧
          parseInt [c5, c6] = today.month + 1 ∧ parseInt [c8, c9] = today.day) :=
        fun h => hq (hiff.mpr h)
      simp only [hq, decide_False, Bool.false_and]
      by_cases ha : parseInt [c0, c1, c2, c3] = today.year
      · by_cases hb : parseInt [c5, c6] = today.month + 1
        · by_cases hc : parseInt [c8, c9] = today.day
          · exact absurd ⟨ha, hb, hc⟩ h3
          · simp [hc]
        · simp [hb]
      · simp [ha]

theorem loadEntry_eq (entry : HumanEntry) (s : AppState) :
    loadEntry entry s = { s with text := (readFile s.files entry.filename).getD s.text } := by
  unfold loadEntry
  cases readFile s.files entry.filename <;> rfl

/-- C5 (counterexample): on 2024-01-06 the directory holds a blank file created
on 2020-05-05 whose id reads `2024-01-06`, and a file with text created on
2024-01-01. No entry was created today and there are two entries, so the rule of
the claim creates a blank entry; `loadEntries` makes the entry of 2020 active
and creates nothing. -/
theorem loadEntries_resumes_entry_of_another_day :
    (validEntries misdatedFiles).map (fun e => (e.id, timestampOf e, e.previewText)) =
      [("2024-01-06".toList, "2020-05-05-05-05-05".toList, []),
       ("zz".toList, "2024-01-01-07-00-00".toList, utf16 "some text".toList)] ∧
    (∀ e ∈ validEntries misdatedFiles, createdOn sampleNow e = false) ∧
    (validEntries misdatedFiles).length = 2 ∧
    (loadEntries true "cc".toList sampleNow sampleNow (launchState misdatedFiles)).selectedEntryId
      = some "2024-01-06".toList ∧
    (loadEntries true "cc".toList sampleNow sampleNow (launchState misdatedFiles)).entries
      = validEntries misdatedFiles ∧
    (loadEntries true "cc".toList sampleNow sampleNow (launchState misdatedFiles)).files
      = misdatedFiles ∧
    loadEntries true "cc".toList sampleNow sampleNow (launchState misdatedFiles) ≠
      createNewEntry true "cc".toList sampleNow false
        { launchState misdatedFiles with entries := validEntries misdatedFiles } := by
  decide

/-- C5 (amended): the bootstrap of `loadEntries`, on the sorted list `validEntries`.
The test "of today and empty" is the code's `isEmptyEntryToday`, which reads the
first `[YYYY-MM-DD` of the file name; for a file named by the convention whose id
holds no such group and whose timestamp is a calendar date it says exactly that
the entry was created today and has an empty preview. The rule: an empty list
gives `createNewEntry(true)`; otherwise the first entry of the list that passes
the test becomes active, the buffer takes its file content, and nothing is
created; otherwise the only entry becomes active when it is the welcome entry;
otherwise `createNewEntry()` is called. A creation whose write completes puts the
new entry in front of the list and makes it active; one whose write throws
changes nothing. So when the write completes, bootstrap always ends with an
existing entry selected and nothing created, or with a new entry created and
active. -/
theorem loadEntries_bootstrap (writeOk : Bool) (newId : JSString) (now today : DateTime)
    (s : AppState) :
    (∀ e id ts, e.filename = conventionName id ts →
      search yearMonthDayPattern ('[' :: id) = none → isTimestamp ts = true →
      IsCalendarDate (yearOf ts) (monthOf ts) (dayOf ts) →
      IsCalendarDate today.year (today.month + 1) today.day →
      (isEmptyEntryToday (newDate today.year today.month today.day) e = true ↔
        createdOn today e = true ∧ e.previewText = [])) ∧
    (validEntries s.files = [] →
      loadEntries writeOk newId now today s =
        createNewEntry writeOk newId now true { s with entries := [] }) ∧
    (∀ e, (validEntries s.files).find?
        (isEmptyEntryToday (newDate today.year today.month today.day)) = some e →
      e ∈ validEntries s.files ∧
      loadEntries writeOk newId now today s =
        { entries := validEntries s.files, selectedEntryId := some e.id,
          text := (readFile s.files e.filename).getD s.text, files := s.files }) ∧
    (∀ w, validEntries s.files = [w] →
      isEmptyEntryToday (newDate today.year today.month today.day) w = false →
      includes w.previewText (utf16 welcomeMarker) = true →
      loadEntries writeOk newId now today s =
        { entries := [w], selectedEntryId := some w.id,
          text := (readFile s.files w.filename).getD s.text, files := s.files }) ∧
    (validEntries s.files ≠ [] →
      (∀ e ∈ validEntries s.files,
        isEmptyEntryToday (newDate today.year today.month today.day) e = false) →
      (¬ ∃ w, validEntries s.files = [w] ∧
        includes w.previewText (utf16 welcomeMarker) = true) →
      loadEntries writeOk newId now today s =
        createNewEntry writeOk newId now false { s with entries := validEntries s.files }) ∧
    (∀ (isWelcome : Bool) (s1 : AppState),
      createNewEntry true newId now isWelcome s1 =
        { entries := newEntryOf newId now isWelcome :: s1.entries,
          selectedEntryId := some newId,
          text := initialContent isWelcome,
          files := writeFile s1.files (entryFilename newId now) (initialContent isWelcome) } ∧
      createNewEntry false newId now isWelcome s1 = s1) ∧
    (writeOk = true →
      (∃ e ∈ validEntries s.files,
        (loadEntries writeOk newId now today s).selectedEntryId = some e.id ∧
        (loadEntries writeOk newId now today s).entries = validEntries s.files ∧
        (loadEntries writeOk newId now today s).files = s.files) ∨
      (∃ isWelcome,
        (loadEntries writeOk newId now today s).entries =
          newEntryOf newId now isWelcome :: validEntries s.files ∧
        (loadEntries writeOk newId now today s).selectedEntryId = some newId ∧
        readFile (loadEntries writeOk newId now today s).files (entryFilename newId now)
          = some (initialContent isWelcome))) := by
  obtain ⟨p1, p2, p3, p4, p5, p6⟩ := bootstrapAction_priority today (validEntries s.files)
  have hload : ∀ a, bootstrapAction today (validEntries s.files) = a →
      loadEntries writeOk newId now today s =
        (match a with
          | .createWelcome =>
            createNewEntry writeOk newId now true { s with entries := validEntries s.files }
          | .createBlank =>
            createNewEntry writeOk newId now false { s with entries := validEntries s.files }
          | .select entry =>
            loadEntry entry
              { s with entries := validEntries s.files, selectedEntryId := some entry.id }
          | .noAction => { s with entries := validEntries s.files }) := by
    intro a ha
    subst ha
    rfl
  have hsel : ∀ e, bootstrapAction today (validEntries s.files) = .select e →
      loadEntries writeOk newId now today s =
        { entries := validEntries s.files, selectedEntryId := some e.id,
          text := (readFile s.files e.filename).getD s.text, files := s.files } := by
    intro e he
    rw [hload _ he]
    simp only [loadEntry_eq]
  have hfound : ∀ e, (validEntries s.files).find?
        (isEmptyEntryToday (newDate today.year today.month today.day)) = some e →
      e ∈ validEntries s.files ∧ bootstrapAction today (validEntries s.files) = .select e := by
    intro e he
    have hmem : e ∈ validEntries s.files := List.mem_of_find?_eq_some he
    have hp : isEmptyEntryToday (newDate today.year today.month today.day) e = true := by
      simpa using List.find?_some he
    have hne : validEntries s.files ≠ [] := List.ne_nil_of_mem hmem
    obtain ⟨e1, _, _, hf1, ha1⟩ := p2 hne ⟨e, hmem, hp⟩
    rw [he] at hf1
    cases hf1
    exact ⟨hmem, ha1⟩
  refine ⟨?_, ?_, ?_, ?_, ?_, ?_, ?_⟩
  · intro e id ts he hclean hts hdate htoday
    rw [isEmptyEntryToday_convention today e id ts he hclean hts hdate htoday]
    simp
  · intro hnil
    rw [hload _ (p1 hnil), hnil]
  · intro e he
    obtain ⟨hmem, ha⟩ := hfound e he
    exact ⟨hmem, hsel e ha⟩
  · intro w hw hpw hinc
    have hne : validEntries s.files ≠ [] := by rw [hw]; simp
    have hall : ∀ e ∈ validEntries s.files,
        isEmptyEntryToday (newDate today.year today.month today.day) e = false := by
      intro e he
      rw [hw] at he
      simp only [List.mem_singleton] at he
      rw [he]; exact hpw
    have ha := p3 hne hall w hw hinc
    rw [hsel w ha, hw]
  · intro hne hall hnw
    rw [hload _ (p4 hne hall hnw)]
  · intro isWelcome s1
    exact ⟨rfl, rfl⟩
  · intro hw
    subst hw
    cases ha : bootstrapAction today (validEntries s.files) with
    | createWelcome =>
      right
      refine ⟨true, ?_⟩
      rw [hload _ ha]
      exact ⟨rfl, rfl, readFile_writeFile_same _ _ _⟩
    | createBlank =>
      right
      refine ⟨false, ?_⟩
      rw [hload _ ha]
      exact ⟨rfl, rfl, readFile_writeFile_same _ _ _⟩
    | select e =>
      left
      refine ⟨e, p6 e ha, ?_⟩
      rw [hsel e ha]
      exact ⟨rfl, rfl, rfl⟩
    | noAction => exact absurd ha p5

/-- C5 (witness): on 2024-01-05 the blank entry `aa` of 2024-01-05 09:00:00 passes
the test, as an entry created today with an empty preview, and it is the entry
that `loadEntries` makes active. -/
theorem loadEntries_bootstrap_witness :
    (isEmptyEntryToday (newDate noonJan5.year noonJan5.month noonJan5.day) blankEntryA = true ↔
      createdOn noonJan5 blankEntryA = true ∧ blankEntryA.previewText = []) ∧
    createdOn noonJan5 blankEntryA = true ∧
    validEntries twoBlankFiles ≠ [] ∧
    loadEntries true "cc".toList sampleNow noonJan5 (launchState twoBlankFiles) =
      { entries := validEntries twoBlankFiles, selectedEntryId := some blankEntryA.id,
        text := (readFile twoBlankFiles blankEntryA.filename).getD [],
        files := twoBlankFiles } :=
  have h := loadEntries_bootstrap true "cc".toList sampleNow noonJan5 (launchState twoBlankFiles)
  ⟨h.1 blankEntryA "aa".toList "2024-01-05-09-00-00".toList (by decide) (by decide)
      (by decide) (by unfold IsCalendarDate; decide) (by unfold IsCalendarDate; decide),
    by decide, by decide, (h.2.2.1 blankEntryA (by decide)).2⟩


/-! ## Saving and creating -/

theorem readFile_writeFile_other (files : FileStore) (name content other : JSString)
    (h : other ≠ name) :
    readFile (writeFile files name content) other = readFile files other := by
  unfold writeFile
  split_ifs with hany
  · clear hany
    induction files with
    | nil => rfl
    | cons f fs ih =>
      simp only [readFile, List.map_cons] at ih ⊢
      by_cases hf : f.1 = name
      · have hfo : ¬ f.1 = other := fun h2 => h (h2.symm.trans hf)
        rw [if_pos hf, List.find?_cons_of_neg _ (by simpa using hfo),
          List.find?_cons_of_neg _ (by simpa using hfo)]
        exact ih
      · rw [if_neg hf]
        by_cases hfo : f.1 = other
        · rw [List.find?_cons_of_pos _ (by simpa using hfo),
            List.find?_cons_of_pos _ (by simpa using hfo)]
        · rw [List.find?_cons_of_neg _ (by simpa using hfo),
            List.find?_cons_of_neg _ (by simpa using hfo)]
          exact ih
  · simp only [readFile, List.find?_append]
    cases hfind : files.find? (fun f => decide (f.1 = other)) with
    | some f => simp
    | none =>
      have : ¬ name = other := fun h2 => h h2.symm
      simp [this]

/-- C12: a completed `saveCurrentEntry`. With an active id (not `null`, not
empty) that is in the list, the file of the entry found for it holds exactly the
buffer text, the entries with that id get the preview computed from that text,
and the length and order of the list, the id, date and file name of every entry,
every entry with another id, the active id, the buffer and every other file are
unchanged. With no active id, or an active id that is not in the list, the state
is unchanged. -/
theorem saveCurrentEntry_effect (s : AppState) :
    (∀ id cur, s.selectedEntryId = some id → id ≠ [] →
      s.entries.find? (fun entry => entry.id = id) = some cur →
      readFile (saveCurrentEntry true s).files cur.filename = some s.text ∧
      (∀ other, other ≠ cur.filename →
        readFile (saveCurrentEntry true s).files other = readFile s.files other) ∧
      (saveCurrentEntry true s).entries = s.entries.map (fun entry =>
        if entry.id = id then { entry with previewText := previewText s.text } else entry) ∧
      (saveCurrentEntry true s).entries.length = s.entries.length ∧
      (saveCurrentEntry true s).entries.map (fun e => (e.id, e.date, e.filename)) =
        s.entries.map (fun e => (e.id, e.date, e.filename)) ∧
      (∀ e ∈ (saveCurrentEntry true s).entries, e.id = id →
        e.previewText = previewText s.text) ∧
      (∀ (i : Nat) (e : HumanEntry), s.entries[i]? = some e → e.id ≠ id →
        (saveCurrentEntry true s).entries[i]? = some e) ∧
      (saveCurrentEntry true s).selectedEntryId = s.selectedEntryId ∧
      (saveCurrentEntry true s).text = s.text) ∧
    (∀ writeOk, s.selectedEntryId = none ∨ s.selectedEntryId = some [] →
      saveCurrentEntry writeOk s = s) ∧
    (∀ writeOk id, s.selectedEntryId = some id →
      (∀ e ∈ s.entries, e.id ≠ id) → saveCurrentEntry writeOk s = s) := by
  refine ⟨?_, ?_, ?_⟩
  · intro id cur hsel hne hfind
    have hres : saveCurrentEntry true s =
        { s with
          files := writeFile s.files cur.filename s.text
          entries := s.entries.map (fun entry =>
            if entry.id = id then { entry with previewText := previewText s.text }
            else entry) } := by
      simp only [saveCurrentEntry, hsel, hne, if_false, hfind, if_true]
    rw [hres]
    refine ⟨readFile_writeFile_same _ _ _, fun other ho => readFile_writeFile_other _ _ _ _ ho,
      rfl, by simp, ?_, ?_, ?_, rfl, rfl⟩
    · simp only [List.map_map]
      apply List.map_congr_left
      intro e _
      simp only [Function.comp]
      split_ifs <;> rfl
    · intro e he hid
      simp only [List.mem_map] at he
      obtain ⟨e0, _, rfl⟩ := he
      split_ifs at hid ⊢ with h0
      · rfl
      · exact absurd hid h0
    · intro i e hi hid
      simp only [List.getElem?_map, hi, Option.map_some', if_neg hid]
  · intro writeOk h
    rcases h with h | h <;> simp [saveCurrentEntry, h]
  · intro writeOk id hsel hall
    have hnone : s.entries.find? (fun entry => decide (entry.id = id)) = none := by
      rw [List.find?_eq_none]
      intro e he
      simpa using hall e he
    simp only [saveCurrentEntry, hsel, hnone]
    split_ifs <;> rfl

set_option maxRecDepth 100000 in
/-- C13 (counterexample): the welcome entry that `createNewEntry(true)` puts in
the list has the preview `Welcome to Freewrite.`, while the preview derived from
the content it wrote, which the next listing computes for the file, is
`Welcome to Freewrite.  This is...`. -/
theorem createNewEntry_welcome_preview_differs :
    (createNewEntry true "cc".toList sampleNow true
        { entries := [], selectedEntryId := none, text := [], files := [] }).entries.map
      (fun e => e.previewText) = [utf16 "Welcome to Freewrite.".toList] ∧
    (validEntries (createNewEntry true "cc".toList sampleNow true
        { entries := [], selectedEntryId := none, text := [], files := [] }).files).map
      (fun e => e.previewText) = [utf16 "Welcome to Freewrite.  This is...".toList] ∧
    previewText (initialContent true) = utf16 "Welcome to Freewrite.  This is...".toList ∧
    (newEntryOf "cc".toList sampleNow true).previewText ≠ previewText (initialContent true) := by
  decide

set_option maxRecDepth 100000 in
/-- C13 (amended): for `isWelcome = false` the entry that `createNewEntry` puts in
the list has the preview derived from the content it wrote (both are empty).
For `isWelcome = true` it has the fixed preview `Welcome to Freewrite.`, a proper
beginning of the derived preview `Welcome to Freewrite.  This is...`. In both
cases a listing of the written file computes the derived preview. -/
theorem createNewEntry_preview (newId : JSString) (now : DateTime) :
    (newEntryOf newId now false).previewText = previewText (initialContent false) ∧
    (newEntryOf newId now false).previewText = [] ∧
    (newEntryOf newId now true).previewText = utf16 "Welcome to Freewrite.".toList ∧
    previewText (initialContent true) = utf16 "Welcome to Freewrite.  This is...".toList ∧
    (newEntryOf newId now true).previewText <+: previewText (initialContent true) ∧
    (∀ isWelcome s,
      (createNewEntry true newId now isWelcome s).entries =
        newEntryOf newId now isWelcome :: s.entries ∧
      readFile (createNewEntry true newId now isWelcome s).files
        (newEntryOf newId now isWelcome).filename = some (initialContent isWelcome)) ∧
    (∀ isWelcome e,
      parseEntry (newEntryOf newId now isWelcome).filename (initialContent isWelcome) = some e →
      e.previewText = previewText (initialContent isWelcome)) := by
  have h1 : previewText (initialContent false) = [] := by decide
  have h2 : previewText (initialContent true) = utf16 "Welcome to Freewrite.  This is...".toList := by
    decide
  refine ⟨h1.symm ▸ rfl, rfl, rfl, h2, ?_, ?_, ?_⟩
  · rw [h2]
    show utf16 "Welcome to Freewrite.".toList <+:
      utf16 "Welcome to Freewrite.  This is...".toList
    exact ⟨utf16 "  This is...".toList, by decide⟩
  · intro isWelcome s
    refine ⟨rfl, ?_⟩
    show readFile (writeFile s.files (entryFilename newId now) (initialContent isWelcome))
      (entryFilename newId now) = _
    exact readFile_writeFile_same _ _ _
  · intro isWelcome e he
    exact (parseEntry_filename _ _ _ he).2

/-- C16: a storage failure leaves the state as it was. A `createNewEntry` whose
write throws returns the state unchanged, and so does a `deleteEntry` whose file
removal throws (because the storage refuses or the file is missing): entries,
active id, buffer and files are all the same as before. -/
theorem storage_failure_keeps_state (newId : JSString) (now : DateTime) (s : AppState) :
    (∀ isWelcome, createNewEntry false newId now isWelcome s = s) ∧
    (∀ writeOk entryId, deleteEntry false writeOk newId now entryId s = s) ∧
    (∀ deleteOk writeOk entryId d,
      s.entries.find? (fun entry => entry.id = entryId) = some d →
      deleteFile deleteOk s.files d.filename = none →
      deleteEntry deleteOk writeOk newId now entryId s = s) ∧
    (∀ deleteOk writeOk entryId, (∀ e ∈ s.entries, e.id ≠ entryId) →
      deleteEntry deleteOk writeOk newId now entryId s = s) := by
  refine ⟨fun _ => rfl, ?_, ?_, ?_⟩
  · intro writeOk entryId
    unfold deleteEntry
    cases s.entries.find? (fun entry => decide (entry.id = entryId)) with
    | none => rfl
    | some d => simp [deleteFile]
  · intro deleteOk writeOk entryId d hfind hdel
    simp only [deleteEntry, hfind, hdel]
  · intro deleteOk writeOk entryId hall
    have hnone : s.entries.find? (fun entry => decide (entry.id = entryId)) = none := by
      rw [List.find?_eq_none]
      intro e he
      simpa using hall e he
    simp only [deleteEntry, hnone]

/-! ## The timer -/

/-- C14: one tick of a running timer with remaining time `t` gives `t - 1` and
keeps running when `t > 1`, gives 0 and stops when `t ≤ 1`; in both cases the
remaining time is not negative afterwards. -/
theorem tick_spec (s : TimerState) (h : s.timerIsRunning = true) :
    (1 < s.timeRemaining →
      tick s = { timeRemaining := s.timeRemaining - 1, timerIsRunning := true }) ∧
    (s.timeRemaining ≤ 1 → tick s = { timeRemaining := 0, timerIsRunning := false }) ∧
    0 ≤ (tick s).timeRemaining := by
  obtain ⟨t, r⟩ := s
  simp only at h
  subst h
  refine ⟨?_, ?_, ?_⟩
  · intro ht
    simp only at ht
    have : ¬ t ≤ 1 := by omega
    simp [tick, this]
  · intro ht
    simp [tick, ht]
  · simp only [tick, if_true]
    split_ifs <;> simp
    omega

/-- C14 (witness): a running timer at 5 goes to 4 and keeps running; at 1 it goes
to 0 and stops. -/
theorem tick_spec_witness :
    tick { timeRemaining := 5, timerIsRunning := true } =
      { timeRemaining := 4, timerIsRunning := true } ∧
    tick { timeRemaining := 1, timerIsRunning := true } =
      { timeRemaining := 0, timerIsRunning := false } :=
  ⟨((tick_spec { timeRemaining := 5, timerIsRunning := true } rfl).1 (by decide)).trans
      (by decide),
   (tick_spec { timeRemaining := 1, timerIsRunning := true } rfl).2.1 (by decide)⟩

/-- C15: `toggleTimer` with remaining time 0 sets the remaining time to 900 and
starts the timer; with another remaining time it flips the running flag and
keeps the remaining time. -/
theorem toggleTimer_spec (s : TimerState) :
    (s.timeRemaining = 0 →
      toggleTimer s = { timeRemaining := 900, timerIsRunning := true }) ∧
    (s.timeRemaining ≠ 0 →
      toggleTimer s =
        { timeRemaining := s.timeRemaining, timerIsRunning := !s.timerIsRunning }) ∧
    (0 < s.timeRemaining → (toggleTimer s).timeRemaining = s.timeRemaining ∧
      (s.timerIsRunning = true → (toggleTimer s).timerIsRunning = false) ∧
      (s.timerIsRunning = false → (toggleTimer s).timerIsRunning = true)) := by
  refine ⟨?_, ?_, ?_⟩
  · intro h; simp [toggleTimer, h]
  · intro h; simp [toggleTimer, h]
  · intro h
    have h0 : s.timeRemaining ≠ 0 := by omega
    have ht : toggleTimer s =
        { timeRemaining := s.timeRemaining, timerIsRunning := !s.timerIsRunning } := by
      simp [toggleTimer, h0]
    rw [ht]
    exact ⟨rfl, fun hr => by simp [hr], fun hr => by simp [hr]⟩

theorem stepTimer_keeps_bounds (s : TimerState) (st : TimerStep)
    (h : 0 ≤ s.timeRemaining ∧ s.timeRemaining ≤ 900 ∧
      (s.timerIsRunning = true → 1 ≤ s.timeRemaining)) :
    0 ≤ (stepTimer s st).timeRemaining ∧ (stepTimer s st).timeRemaining ≤ 900 ∧
      ((stepTimer s st).timerIsRunning = true → 1 ≤ (stepTimer s st).timeRemaining) := by
  obtain ⟨t, r⟩ := s
  obtain ⟨h0, h900, hrun⟩ := h
  simp only at h0 h900 hrun
  cases st with
  | tick =>
    simp only [stepTimer, tick]
    split_ifs with h1 h2
    · simp
    · refine ⟨by simp; omega, by simp; omega, fun _ => by simp; omega⟩
    · exact ⟨h0, h900, hrun⟩
  | toggle =>
    simp only [stepTimer, toggleTimer]
    split_ifs with h1
    · simp
    · refine ⟨h0, h900, fun _ => ?_⟩
      show 1 ≤ t
      omega
  | reset => simp [stepTimer, resetTimer]

/-- C19: in every state reached from the initial timer state (900, not running)
by ticks, toggles and resets, the remaining time is between 0 and 900, and a
running timer has at least 1 second remaining. -/
theorem timer_invariant (steps : List TimerStep) :
    0 ≤ (runTimer steps initialTimer).timeRemaining ∧
    (runTimer steps initialTimer).timeRemaining ≤ 900 ∧
    ((runTimer steps initialTimer).timerIsRunning = true →
      1 ≤ (runTimer steps initialTimer).timeRemaining) := by
  have hgen : ∀ (steps : List TimerStep) (s : TimerState),
      (0 ≤ s.timeRemaining ∧ s.timeRemaining ≤ 900 ∧
        (s.timerIsRunning = true → 1 ≤ s.timeRemaining)) →
      (0 ≤ (runTimer steps s).timeRemaining ∧ (runTimer steps s).timeRemaining ≤ 900 ∧
        ((runTimer steps s).timerIsRunning = true → 1 ≤ (runTimer steps s).timeRemaining)) := by
    intro steps
    induction steps with
    | nil => intro s h; exact h
    | cons st rest ih =>
      intro s h
      exact ih (stepTimer s st) (stepTimer_keeps_bounds s st h)
  exact hgen steps initialTimer (by decide)


/-! ## The auto-save effect -/

theorem advance_of_lt (time : Nat) (a : AutosaveState) (h : time < a.nextSave) :
    advance time a = a := by
  have : ¬ a.nextSave ≤ time := by omega
  simp [advance, this]

/-- Buffer changes that follow each other at less than one second never let the
interval fire: no file is written and the entry list is not touched. -/
theorem runEdits_no_write (edits : List (Nat × JSString)) (a : AutosaveState)
    (hfirst : ∀ e ∈ edits.head?, e.1 < a.nextSave)
    (hgap : edits.Chain' (fun e1 e2 => e2.1 < e1.1 + 1000)) :
    (runEdits edits a).app.files = a.app.files ∧
    (runEdits edits a).app.entries = a.app.entries ∧
    (runEdits edits a).app.selectedEntryId = a.app.selectedEntryId := by
  induction edits generalizing a with
  | nil => exact ⟨rfl, rfl, rfl⟩
  | cons e rest ih =>
    have h1 : e.1 < a.nextSave := hfirst e (by simp)
    have hstep : editAt e.1 e.2 a =
        { app := { a.app with text := e.2 }, nextSave := e.1 + 1000 } := by
      simp [editAt, advance_of_lt _ _ h1]
    have h2 := ih (editAt e.1 e.2 a)
      (by
        intro e2 he2
        rw [hstep]
        cases rest with
        | nil => simp at he2
        | cons r rs =>
          simp only [List.head?_cons, Option.mem_def, Option.some.injEq] at he2
          subst he2
          exact (List.chain'_cons.mp hgap).1)
      (List.Chain'.tail hgap)
    have hrun : runEdits (e :: rest) a = runEdits rest (editAt e.1 e.2 a) := rfl
    rw [hrun]
    refine ⟨h2.1.trans ?_, h2.2.1.trans ?_, h2.2.2.trans ?_⟩ <;> rw [hstep]

/-- C11 (the code at the failing input): the buffer of the active entry `aa`
changes at 600, 1200, 1800 and 2400 ms. At 2400 ms (and up to 3399 ms) the file
still holds `old text`, although the change made at 600 ms is 1800 ms old; the
first write happens at 3400 ms, one second after the last change. -/
theorem autosave_starved_by_rapid_edits :
    savedSession.app.selectedEntryId = some entryA.id ∧
    readFile savedSession.app.files entryA.filename = some "old text".toList ∧
    readFile (advance 2400 (runEdits rapidEdits savedSession)).app.files entryA.filename
      = some "old text".toList ∧
    readFile (advance 3399 (runEdits rapidEdits savedSession)).app.files entryA.filename
      = some "old text".toList ∧
    (advance 3399 (runEdits rapidEdits savedSession)).app.text = "abcd".toList ∧
    readFile (advance 3400 (runEdits rapidEdits savedSession)).app.files entryA.filename
      = some "abcd".toList := by
  decide

/-- The auto-save as the code performs it: a change of the buffer is written to
the file of the active entry one second later when the buffer does not change
again in between, and a sequence of changes less than one second apart writes
nothing. -/
theorem autosave_after_idle_second (a : AutosaveState) (time : Nat) (text : JSString)
    (id : JSString) (cur : HumanEntry) (hsel : (advance time a).app.selectedEntryId = some id)
    (hne : id ≠ [])
    (hfind : (advance time a).app.entries.find? (fun entry => entry.id = id) = some cur) :
    readFile (advance (time + 1000) (editAt time text a)).app.files cur.filename = some text ∧
    (∀ t, t < time + 1000 →
      (advance t (editAt time text a)).app.files = (advance time a).app.files) := by
  constructor
  · have h1 : advance (time + 1000) (editAt time text a) =
        { app := autosaveTick { (advance time a).app with text := text },
          nextSave := time + 1000 + 1000 } := by
      simp [advance, editAt, runTicks]
    rw [h1]
    simp only [autosaveTick, hsel, hne, if_false, saveCurrentEntry, hfind, if_true]
    exact readFile_writeFile_same _ _ _
  · intro t ht
    rw [advance_of_lt t _ (by simpa [editAt] using ht)]
    rfl

/-- An idle second after a buffer change writes the change: the file of `aa`
holds `new` at 1500 ms after a change at 500 ms. -/
theorem autosave_after_idle_second_witness :
    readFile (advance (500 + 1000) (editAt 500 "new".toList savedSession)).app.files
      entryA.filename = some "new".toList :=
  (autosave_after_idle_second savedSession 500 "new".toList "aa".toList entryA
    (by decide) (by decide) (by decide)).1

/-! ## `loadEntries`: which empty entry of today is resumed -/

/-- C18 (the code at the failing input): two blank entries of 2024-01-05, listed
by the directory oldest first. On 2024-01-05 the bootstrap makes the entry of
09:00:00 active, not the most recent one of 10:00:00. -/
theorem loadEntries_resumes_older_entry :
    (validEntries twoBlankFiles).map (fun e => (e.id, timestampOf e, e.previewText)) =
      [("aa".toList, "2024-01-05-09-00-00".toList, []),
       ("bb".toList, "2024-01-05-10-00-00".toList, [])] ∧
    (loadEntries true "cc".toList sampleNow
        { year := 2024, month := 0, day := 5, hours := 12, minutes := 0, seconds := 0 }
        { entries := [], selectedEntryId := none, text := [], files := twoBlankFiles }
      ).selectedEntryId = some "aa".toList ∧
    localeCompare "2024-01-05-09-00-00".toList "2024-01-05-10-00-00".toList = -1 := by
  decide


/-! ## The file name built by `createNewEntry` -/

theorem digitChar_digit : ∀ d, d < 10 →
    (decide (48 ≤ (Nat.digitChar d).toNat) && decide ((Nat.digitChar d).toNat ≤ 57)) = true ∧
    (Nat.digitChar d).toNat - 48 = d ∧ Nat.digitChar d ≠ '-' := by
  decide

theorem digitChar_hex : ∀ v, v < 16 → isHexOrHyphen (Nat.digitChar v) = true := by
  decide

theorem toDigits_one (n : Nat) (h : n < 10) : Nat.toDigits 10 n = [Nat.digitChar n] := by
  have h1 : n / 10 = 0 := by omega
  have h2 : n % 10 = n := by omega
  simp [Nat.toDigits, Nat.toDigitsCore, h1, h2]

theorem toDigits_two (n : Nat) (h1 : 10 ≤ n) (h2 : n < 100) :
    Nat.toDigits 10 n = [Nat.digitChar (n / 10), Nat.digitChar (n % 10)] := by
  have hf : n + 1 = (n - 1) + 1 + 1 := by omega
  have ha : ¬ n / 10 = 0 := by omega
  have hb : n / 10 / 10 = 0 := by omega
  have hc : n / 10 % 10 = n / 10 := by omega
  rw [Nat.toDigits, hf]
  simp [Nat.toDigitsCore, ha, hb, hc]

theorem toDigits_four (n : Nat) (h1 : 1000 ≤ n) (h2 : n < 10000) :
    Nat.toDigits 10 n = [Nat.digitChar (n / 1000), Nat.digitChar (n / 100 % 10),
      Nat.digitChar (n / 10 % 10), Nat.digitChar (n % 10)] := by
  have hf : n + 1 = (n - 3) + 1 + 1 + 1 + 1 := by omega
  have ha : ¬ n / 10 = 0 := by omega
  have hb : ¬ n / 10 / 10 = 0 := by omega
  have hc : ¬ n / 10 / 10 / 10 = 0 := by omega
  have hd : n / 10 / 10 / 10 / 10 = 0 := by omega
  have he : n / 10 / 10 / 10 % 10 = n / 1000 := by omega
  have hg : n / 10 / 10 % 10 = n / 100 % 10 := by omega
  rw [Nat.toDigits, hf]
  simp [Nat.toDigitsCore, ha, hb, hc, hd, he, hg]

theorem decimal_natCast (n : Nat) : decimal (n : Int) = Nat.toDigits 10 n := by
  simp only [decimal, Nat.repr, Int.toNat_ofNat]
  rfl

theorem pad_eq (n : Nat) (h : n < 100) :
    pad n = [Nat.digitChar (n / 10), Nat.digitChar (n % 10)] := by
  by_cases h10 : n < 10
  · have h1 : n / 10 = 0 := by omega
    have h2 : n % 10 = n := by omega
    simp [pad, decimal_natCast, toDigits_one n h10, h1, h2, Nat.digitChar]
  · simp [pad, decimal_natCast, toDigits_two n (by omega) h]


theorem isTimestamp_of_digits (a0 a1 a2 a3 b0 b1 c0 c1 d0 d1 e0 e1 f0 f1 : Nat)
    (ha0 : a0 < 10) (ha1 : a1 < 10) (ha2 : a2 < 10) (ha3 : a3 < 10)
    (hb0 : b0 < 10) (hb1 : b1 < 10) (hc0 : c0 < 10) (hc1 : c1 < 10)
    (hd0 : d0 < 10) (hd1 : d1 < 10) (he0 : e0 < 10) (he1 : e1 < 10)
    (hf0 : f0 < 10) (hf1 : f1 < 10) :
    isTimestamp
      [Nat.digitChar a0, Nat.digitChar a1, Nat.digitChar a2, Nat.digitChar a3, '-',
       Nat.digitChar b0, Nat.digitChar b1, '-', Nat.digitChar c0, Nat.digitChar c1, '-',
       Nat.digitChar d0, Nat.digitChar d1, '-', Nat.digitChar e0, Nat.digitChar e1, '-',
       Nat.digitChar f0, Nat.digitChar f1] = true ∧
    (splitDash
      [Nat.digitChar a0, Nat.digitChar a1, Nat.digitChar a2, Nat.digitChar a3, '-',
       Nat.digitChar b0, Nat.digitChar b1, '-', Nat.digitChar c0, Nat.digitChar c1, '-',
       Nat.digitChar d0, Nat.digitChar d1, '-', Nat.digitChar e0, Nat.digitChar e1, '-',
       Nat.digitChar f0, Nat.digitChar f1]).map parseInt =
      [((a0 * 10 + a1) * 10 + a2) * 10 + a3, b0 * 10 + b1, c0 * 10 + c1, d0 * 10 + d1,
       e0 * 10 + e1, f0 * 10 + f1] := by
  have A0 := digitChar_digit a0 ha0
  have A1 := digitChar_digit a1 ha1
  have A2 := digitChar_digit a2 ha2
  have A3 := digitChar_digit a3 ha3
  have B0 := digitChar_digit b0 hb0
  have B1 := digitChar_digit b1 hb1
  have C0 := digitChar_digit c0 hc0
  have C1 := digitChar_digit c1 hc1
  have D0 := digitChar_digit d0 hd0
  have D1 := digitChar_digit d1 hd1
  have E0 := digitChar_digit e0 he0
  have E1 := digitChar_digit e1 he1
  have F0 := digitChar_digit f0 hf0
  have F1 := digitChar_digit f1 hf1
  constructor
  · simp only [isTimestamp, timestampPattern, d4, d2, List.cons_append, List.nil_append,
      matchHere, Atom.test, A0.1, A1.1, A2.1, A3.1, B0.1, B1.1, C0.1, C1.1, D0.1, D1.1,
      E0.1, E1.1, F0.1, F1.1, if_true, decide_True, Option.map_some', decide_eq_true_eq]
  · simp only [splitDash, A0.2.2, A1.2.2, A2.2.2, A3.2.2, B0.2.2, B1.2.2, C0.2.2, C1.2.2,
      D0.2.2, D1.2.2, E0.2.2, E1.2.2, F0.2.2, F1.2.2, if_false, if_true, List.map_cons,
      List.map_nil, parseInt, List.foldl_cons, List.foldl_nil, A0.2.1, A1.2.1, A2.2.1,
      A3.2.1, B0.2.1, B1.2.1, C0.2.1, C1.2.1, D0.2.1, D1.2.1, E0.2.1, E1.2.1, F0.2.1, F1.2.1]
    simp only [List.cons.injEq, and_true]
    refine ⟨?_, ?_, ?_, ?_, ?_, ?_⟩ <;> omega

theorem dateFormatter_eq (now : DateTime) (h : now.FourDigitYear) :
    dateFormatter now =
      [Nat.digitChar (now.year / 1000), Nat.digitChar (now.year / 100 % 10),
       Nat.digitChar (now.year / 10 % 10), Nat.digitChar (now.year % 10), '-',
       Nat.digitChar ((now.month + 1) / 10), Nat.digitChar ((now.month + 1) % 10), '-',
       Nat.digitChar (now.day / 10), Nat.digitChar (now.day % 10), '-',
       Nat.digitChar (now.hours / 10), Nat.digitChar (now.hours % 10), '-',
       Nat.digitChar (now.minutes / 10), Nat.digitChar (now.minutes % 10), '-',
       Nat.digitChar (now.seconds / 10), Nat.digitChar (now.seconds % 10)] := by
  obtain ⟨h1, h2, h3, h4, h5, h6, h7, h8⟩ := h
  simp only [dateFormatter, decimal_natCast, toDigits_four now.year h1 (by omega),
    pad_eq (now.month + 1) (by omega), pad_eq now.day (by omega), pad_eq now.hours (by omega),
    pad_eq now.minutes (by omega), pad_eq now.seconds (by omega), List.cons_append,
    List.nil_append]

theorem dateFormatter_timestamp (now : DateTime) (h : now.FourDigitYear) :
    isTimestamp (dateFormatter now) = true ∧
    (splitDash (dateFormatter now)).map parseInt =
      [now.year, now.month + 1, now.day, now.hours, now.minutes, now.seconds] := by
  rw [dateFormatter_eq now h]
  obtain ⟨h1, h2, h3, h4, h5, h6, h7, h8⟩ := h
  have hd := isTimestamp_of_digits (now.year / 1000) (now.year / 100 % 10)
    (now.year / 10 % 10) (now.year % 10) ((now.month + 1) / 10) ((now.month + 1) % 10)
    (now.day / 10) (now.day % 10) (now.hours / 10) (now.hours % 10) (now.minutes / 10)
    (now.minutes % 10) (now.seconds / 10) (now.seconds % 10)
    (by omega) (by omega) (by omega) (by omega) (by omega) (by omega) (by omega) (by omega)
    (by omega) (by omega) (by omega) (by omega) (by omega) (by omega)
  refine ⟨hd.1, ?_⟩
  rw [hd.2]
  simp only [List.cons.injEq, and_true]
  refine ⟨?_, ?_, ?_, ?_, ?_, ?_⟩ <;> omega

theorem replaceXY_length (draws : Nat → Fin 16) (i : Nat) (template : JSString) :
    (replaceXY draws i template).length = template.length := by
  induction template generalizing i with
  | nil => rfl
  | cons c cs ih =>
    simp only [replaceXY]
    split_ifs <;> simp [ih]

theorem replaceXY_chars (draws : Nat → Fin 16) (i : Nat) (template : JSString)
    (h : ∀ c ∈ template, c ≠ 'x' → c ≠ 'y' → isHexOrHyphen c = true) :
    ∀ c ∈ replaceXY draws i template, isHexOrHyphen c = true := by
  induction template generalizing i with
  | nil => intro c hc; simp [replaceXY] at hc
  | cons t ts ih =>
    have hrest := fun j => ih j (fun c hc => h c (List.mem_cons_of_mem _ hc))
    have hy : ∀ r : Fin 16, (r.val &&& 0x3 ||| 0x8) < 16 := by decide
    intro c hc
    simp only [replaceXY] at hc
    split_ifs at hc with hx hyy
    · rcases List.mem_cons.mp hc with rfl | hc
      · exact digitChar_hex _ (draws i).isLt
      · exact hrest _ c hc
    · rcases List.mem_cons.mp hc with rfl | hc
      · exact digitChar_hex _ (hy (draws i))
      · exact hrest _ c hc
    · rcases List.mem_cons.mp hc with rfl | hc
      · exact h c (List.mem_cons_self _ _) hx hyy
      · exact hrest _ c hc

theorem generateUUID_chars (draws : Nat → Fin 16) :
    (generateUUID draws).length = 36 ∧ ∀ c ∈ generateUUID draws, isHexOrHyphen c = true := by
  constructor
  · rw [generateUUID, replaceXY_length]; decide
  · apply replaceXY_chars
    decide

theorem isHexOrHyphen_plain (c : Char) (h : isHexOrHyphen c = true) :
    c ≠ ']' ∧ c ≠ '[' ∧ isLineTerminator c = false := by
  refine ⟨?_, ?_, ?_⟩
  · intro h0; subst h0; revert h; decide
  · intro h0; subst h0; revert h; decide
  · simp only [isHexOrHyphen, Bool.or_eq_true, Bool.and_eq_true, decide_eq_true_eq] at h
    rcases h with (h | h) | h
    · simp only [isLineTerminator, Bool.or_eq_false_iff, decide_eq_false_iff_not]; omega
    · simp only [isLineTerminator, Bool.or_eq_false_iff, decide_eq_false_iff_not]; omega
    · subst h; decide

/-- C17: the file name that `createNewEntry` builds from `generateUUID` and
`dateFormatter`, for any random draws and any creation time with a four-digit
year, is `[<id>]-[<YYYY-MM-DD-HH-mm-ss>].md` with a 36-character id of lowercase
hexadecimal digits and hyphens; `loadEntries` accepts it and parses back the
same id and a date string whose six fields are the creation year, month, day,
hour, minute and second. -/
theorem createdFilename_roundtrip (draws : Nat → Fin 16) (now : DateTime)
    (hnow : now.FourDigitYear) :
    entryFilename (generateUUID draws) now =
      conventionName (generateUUID draws) (dateFormatter now) ∧
    isTimestamp (dateFormatter now) = true ∧
    (generateUUID draws).length = 36 ∧
    (∀ c ∈ generateUUID draws, isHexOrHyphen c = true) ∧
    ']' ∉ generateUUID draws ∧
    FollowsConvention (entryFilename (generateUUID draws) now) ∧
    accepted (entryFilename (generateUUID draws) now) = true ∧
    matchUuid (entryFilename (generateUUID draws) now) = some (generateUUID draws) ∧
    matchDateTime (entryFilename (generateUUID draws) now) = some (dateFormatter now) ∧
    (splitDash (dateFormatter now)).map parseInt =
      [now.year, now.month + 1, now.day, now.hours, now.minutes, now.seconds] ∧
    (∀ content, ∃ e,
      parseEntry (entryFilename (generateUUID draws) now) content = some e ∧
      e.id = generateUUID draws ∧ e.filename = entryFilename (generateUUID draws) now ∧
      (newEntryOf (generateUUID draws) now false).id = e.id ∧
      (newEntryOf (generateUUID draws) now false).filename = e.filename) := by
  have hname : entryFilename (generateUUID draws) now =
      conventionName (generateUUID draws) (dateFormatter now) := by
    simp [entryFilename, conventionName]
  obtain ⟨hts, hfields⟩ := dateFormatter_timestamp now hnow
  obtain ⟨hlen, hchars⟩ := generateUUID_chars draws
  have hclose : ']' ∉ generateUUID draws :=
    fun hmem => (isHexOrHyphen_plain _ (hchars _ hmem)).1 rfl
  have hopen : '[' ∉ generateUUID draws :=
    fun hmem => (isHexOrHyphen_plain _ (hchars _ hmem)).2.1 rfl
  have hlt : ∀ c ∈ generateUUID draws, isLineTerminator c = false :=
    fun c hc => (isHexOrHyphen_plain _ (hchars _ hc)).2.2
  have hfc : FollowsConvention (entryFilename (generateUUID draws) now) :=
    ⟨generateUUID draws, dateFormatter now, hclose, hts, hname⟩
  have hu : matchUuid (entryFilename (generateUUID draws) now) = some (generateUUID draws) := by
    rw [hname, conventionName_eq, List.cons_append, matchUuid, if_pos rfl,
      lazyUntilClose_eq _ _ hclose hlt]
  have hd : matchDateTime (entryFilename (generateUUID draws) now) =
      some (dateFormatter now) := by
    have hs := search_dateTime_convention (generateUUID draws) (dateFormatter now) hclose hts
      (by
        intro t ht hsuf
        rcases List.suffix_cons_iff.mp hsuf with heq | hsuf2
        · have h1 := congrArg List.length heq
          simp only [List.length_cons, timestamp_length t ht, hlen] at h1
          omega
        · exact hopen (hsuf2.subset (List.mem_cons_self _ _)))
    simp [matchDateTime, hname, hs]
  refine ⟨hname, hts, hlen, hchars, hclose, hfc, accepted_of_followsConvention _ hfc, hu, hd,
    hfields, fun content => ?_⟩
  simp [parseEntry, hu, hd, newEntryOf]

/-- C17 (witness): with all draws 0 and the creation time 2024-01-06 07:08:09 the
file name is `[00000000-0000-4000-8000-000000000000]-[2024-01-06-07-08-09].md`, and
it parses back to that id and date string. -/
theorem createdFilename_roundtrip_witness :
    entryFilename (generateUUID zeroDraws) sampleNow =
      "[00000000-0000-4000-8000-000000000000]-[2024-01-06-07-08-09].md".toList ∧
    matchUuid (entryFilename (generateUUID zeroDraws) sampleNow) =
      some "00000000-0000-4000-8000-000000000000".toList ∧
    matchDateTime (entryFilename (generateUUID zeroDraws) sampleNow) =
      some "2024-01-06-07-08-09".toList :=
  have h := createdFilename_roundtrip zeroDraws sampleNow
    (by unfold DateTime.FourDigitYear; decide)
  ⟨by decide, h.2.2.2.2.2.2.2.1.trans (by decide), h.2.2.2.2.2.2.2.2.1.trans (by decide)⟩

end Freewrite
